import Mathlib

/-!
Verification of the virtual-room reflection engine.

This file gives a shallow embedding of the geometry/graph engine of the
repository (reflection transforms, room-tree builder, ray/room slab
intersector, path folder, object projector) and proves or refutes the
specification claims about it.

Modelling conventions, shared by all sections:

* TypeScript `number` values are modelled as exact rationals `ℚ` (for
  point coordinates and room sizes) or as `ℤ`/`ℕ` where the data model
  declares integers (grid positions, reflection orders).  JavaScript
  `Infinity` appearing in the slab computation is modelled by a dedicated
  three-point extension `ERat` of `ℚ`.
* Room ids in the source are strings built as `parentId-wall-order`.
  Since the wall token and the order token never contain a dash, this
  string scheme is injective in (parent, wall, order) — the string can be
  parsed back uniquely from the right.  Ids are therefore modelled by the
  free inductive type `RoomId` below; id equality in the source coincides
  with structural equality of `RoomId`.
* The mutable JS object graph of `RoomNode`s (`roomsById` map, parent and
  children references, `positionMap`) is modelled by an id-keyed arena
  (`BuildSt`): association lists in insertion order, which is what a JS
  `Map` iterates in.  Mutations of nodes that have been deleted from
  `roomsById` are unobservable in the source (such nodes are never
  reachable from the root again), so the arena updates them by id with
  modify-if-present semantics.
* `flattenRoomTree` recurses over the children graph; in the source this
  terminates because the structure is a tree.  The embedding passes
  explicit fuel; `maxOrder + 1` levels suffice because every child's
  reflection order exceeds its parent's by one and orders are bounded by
  `maxOrder` (proved below as part of the state invariant).
-/

/-- The four walls of a rectangular room. -/
inductive Wall : Type
  | top
  | right
  | bottom
  | left
deriving DecidableEq, Repr

/-- A mirror configuration: which of the four walls carry a mirror. -/
structure WallCfg : Type where
  top : Bool
  right : Bool
  bottom : Bool
  left : Bool
deriving DecidableEq, Repr

/-- Look up one wall of a configuration. -/
def WallCfg.get (w : WallCfg) : Wall → Bool
  | .top => w.top
  | .right => w.right
  | .bottom => w.bottom
  | .left => w.left

/-- A point with exact rational coordinates (models a TS `Point`). -/
structure Pt : Type where
  x : ℚ
  y : ℚ
deriving DecidableEq, Repr

/-- An integer grid position (the data model declares room positions as
integer points). -/
structure IPos : Type where
  x : ℤ
  y : ℤ
deriving DecidableEq, Repr

/-- Room ids: the source builds id strings as `parentId-wall-order`, which
is injective in (parent, wall, order); we model ids by the corresponding
free structure. -/
inductive RoomId : Type
  | original
  | child (parent : RoomId) (w : Wall) (order : ℕ)
deriving DecidableEq, Repr

/-- A room record (models the TS `Room`). -/
structure Room : Type where
  id : RoomId
  width : ℚ
  height : ℚ
  walls : WallCfg
  position : IPos
  reflectionOrder : ℕ
  reflectionWall : Option Wall
  parentRoomId : Option RoomId
deriving DecidableEq, Repr

/-! ### ReflectionTransform (reflectionUtils.ts, foldingUtils.ts) -/

/-- Wall configuration of a virtual room (reflectionUtils.ts,
`getVirtualRoomWalls`): reflecting across top or bottom swaps the
top/bottom mirrors; reflecting across left or right swaps left/right. -/
def getVirtualRoomWalls (originalWalls : WallCfg) (reflectionWall : Wall) :
    WallCfg :=
  match reflectionWall with
  | .top =>
      { originalWalls with top := originalWalls.bottom, bottom := originalWalls.top }
  | .bottom =>
      { originalWalls with bottom := originalWalls.top, top := originalWalls.bottom }
  | .left =>
      { originalWalls with left := originalWalls.right, right := originalWalls.left }
  | .right =>
      { originalWalls with right := originalWalls.left, left := originalWalls.right }

/-- Reflect a point across a wall of the room at grid position
`roomPosition` with side `roomSize` (foldingUtils.ts, `reflectPointOverWall`). -/
def reflectPointOverWall (point : Pt) (wall : Wall) (roomPosition : Pt)
    (roomSize : ℚ) : Pt :=
  let roomLeft := roomPosition.x * roomSize
  let roomRight := roomLeft + roomSize
  let roomTop := roomPosition.y * roomSize
  let roomBottom := roomTop + roomSize
  match wall with
  | .top => { x := point.x, y := 2 * roomTop - point.y }
  | .right => { x := 2 * roomRight - point.x, y := point.y }
  | .bottom => { x := point.x, y := 2 * roomBottom - point.y }
  | .left => { x := 2 * roomLeft - point.x, y := point.y }

/-- Reflect a point across a wall, integer room position variant
(foldingUtils.ts, `reflectPointAcrossWall`). -/
def reflectPointAcrossWall (point : Pt) (roomPosition : IPos)
    (roomSize : ℚ) (wall : Wall) : Pt :=
  let roomLeft := (roomPosition.x : ℚ) * roomSize
  let roomRight := roomLeft + roomSize
  let roomTop := (roomPosition.y : ℚ) * roomSize
  let roomBottom := roomTop + roomSize
  match wall with
  | .top => { x := point.x, y := 2 * roomTop - point.y }
  | .right => { x := 2 * roomRight - point.x, y := point.y }
  | .bottom => { x := point.x, y := 2 * roomBottom - point.y }
  | .left => { x := 2 * roomLeft - point.x, y := point.y }

/-- Reflect an object's grid-local position across a wall
(reflectionUtils.ts, `reflectObjectPosition`). -/
def reflectObjectPosition (position : Pt) (roomWidth roomHeight : ℚ)
    (wall : Wall) : Pt :=
  match wall with
  | .top => { x := position.x, y := roomHeight - position.y - 1 }
  | .right => { x := roomWidth - position.x - 1, y := position.y }
  | .bottom => { x := position.x, y := roomHeight - position.y - 1 }
  | .left => { x := roomWidth - position.x - 1, y := position.y }

/-! ### RoomTreeBuilder (roomUtils.ts, second implementation) -/

/-- Path-based id for a virtual room (roomUtils.ts, `generateRoomId`). -/
def generateRoomId (parentId : RoomId) (reflectionWall : Wall)
    (reflectionOrder : ℕ) : RoomId :=
  .child parentId reflectionWall reflectionOrder

/-- Create a virtual room as a reflection of `sourceRoom`
(roomUtils.ts, `createVirtualRoom`). -/
def createVirtualRoom (sourceRoom : Room) (reflectionWall : Wall)
    (position : IPos) (reflectionOrder : ℕ) : Room :=
  { id := generateRoomId sourceRoom.id reflectionWall reflectionOrder
    width := sourceRoom.width
    height := sourceRoom.height
    walls := getVirtualRoomWalls sourceRoom.walls reflectionWall
    position := position
    reflectionOrder := reflectionOrder
    reflectionWall := some reflectionWall
    parentRoomId := some sourceRoom.id }

/-- Grid position of the virtual room across the given wall
(roomUtils.ts, `getVirtualRoomPosition`). -/
def getVirtualRoomPosition (sourceRoom : Room) (reflectionWall : Wall) :
    IPos :=
  match reflectionWall with
  | .top => { x := sourceRoom.position.x, y := sourceRoom.position.y - 1 }
  | .right => { x := sourceRoom.position.x + 1, y := sourceRoom.position.y }
  | .bottom => { x := sourceRoom.position.x, y := sourceRoom.position.y + 1 }
  | .left => { x := sourceRoom.position.x - 1, y := sourceRoom.position.y }

/-- Arena entry for one `RoomNode` of the source: the room value, the
parent reference and the children references, all by id. -/
structure RoomNodeE : Type where
  room : Room
  parent : Option RoomId
  children : List RoomId
deriving DecidableEq, Repr

/-- Builder state: `nodes` models the JS `roomsById` map (insertion
order preserved), `posMap` models the `positionMap` from position keys to
lists of room ids. -/
structure BuildSt : Type where
  nodes : List (RoomId × RoomNodeE)
  posMap : List (IPos × List RoomId)
deriving DecidableEq, Repr

/-- First binding of a key in an association list (JS `Map.get`). -/
def alook {α β : Type} [DecidableEq α] : List (α × β) → α → Option β
  | [], _ => none
  | (k, v) :: rest, i => if k = i then some v else alook rest i

/-- Remove a key from an association list (JS `Map.delete`; keys are
unique in a JS map, so removing every binding is equivalent). -/
def aerase {α β : Type} [DecidableEq α] (l : List (α × β)) (k : α) :
    List (α × β) :=
  l.filter (fun p => p.1 ≠ k)

/-- Update the binding of a key in place if present, keeping list order
(JS mutation of a field of the stored object). -/
def amodify {α β : Type} [DecidableEq α] (l : List (α × β)) (k : α)
    (f : β → β) : List (α × β) :=
  l.map (fun p => if p.1 = k then (p.1, f p.2) else p)

/-- Set a key to a value: replace in place if present, else append
(JS `Map.set`). -/
def aset {α β : Type} [DecidableEq α] (l : List (α × β)) (k : α) (v : β) :
    List (α × β) :=
  if (alook l k).isSome then
    l.map (fun p => if p.1 = k then (p.1, v) else p)
  else
    l ++ [(k, v)]

/-- The first node of reflection order 0 in insertion order
(`Array.from(roomsById.values()).find(n => n.room.reflectionOrder === 0)`). -/
def findOriginal (st : BuildSt) : Option Room :=
  (st.nodes.find? (fun p => p.2.room.reflectionOrder = 0)).map
    (fun p => p.2.room)

/-- Lowest live reflection order among the ids recorded at a position;
ids whose node has been deleted contribute `Infinity` (JS
`Math.min(...ids.map(id => roomsById.get(id)?.room.reflectionOrder ?? Infinity))`,
written in the source with an `existingRoom ? ... : Infinity` check). -/
def lowestOrderAt (st : BuildSt) (ids : List RoomId) : WithTop ℕ :=
  (ids.map (fun i => ((alook st.nodes i).map
    (fun nd => nd.room.reflectionOrder) : Option ℕ))).foldr
    (fun o acc => min (o.elim ⊤ (fun n => (n : WithTop ℕ))) acc) ⊤

/-- Evict one recorded id at `posKey` if its live order exceeds
`currentOrder + 1`: detach it from its parent's children, delete it from
the node arena, and overwrite the position list with the original
snapshot minus this id (faithful to the source's `forEach`, which
rewrites `positionMap` from the captured `existingRoomsAtPos` each
iteration). -/
def evictOne (posKey : IPos) (snapshot : List RoomId) (currentOrder : ℕ)
    (st : BuildSt) (i : RoomId) : BuildSt :=
  match alook st.nodes i with
  | none => st
  | some nd =>
      if currentOrder + 1 < nd.room.reflectionOrder then
        let nodes1 :=
          match nd.parent with
          | some pid =>
              amodify st.nodes pid
                (fun pe => { pe with children := pe.children.filter (fun c => c ≠ i) })
          | none => st.nodes
        { nodes := aerase nodes1 i
          posMap := aset st.posMap posKey (snapshot.filter (fun r => r ≠ i)) }
      else st

/-- Evict every recorded higher-order room at `posKey` (the source's
`existingRoomsAtPos.forEach(...)`). -/
def evictAll (posKey : IPos) (snapshot : List RoomId) (currentOrder : ℕ)
    (st : BuildSt) : BuildSt :=
  snapshot.foldl (evictOne posKey snapshot currentOrder) st

/-- Install a freshly created virtual room: append it to the current
node's children, to the arena and to the position map (the tail of
`createVirtualRoomIfNeeded` after all the skip checks). Returns the new
state and the installed (id, room) for the recursive call, or `none` when
the id already exists. -/
def installRoom (u : RoomId) (virtualRoom : Room) (position : IPos)
    (st : BuildSt) : BuildSt × Option (RoomId × Room) :=
  if (alook st.nodes virtualRoom.id).isSome then (st, none)
  else
    let nodes1 := amodify st.nodes u
      (fun pe => { pe with children := pe.children ++ [virtualRoom.id] })
    let nodes2 := nodes1 ++ [(virtualRoom.id, ⟨virtualRoom, some u, []⟩)]
    let oldList := (alook st.posMap position).getD []
    let posMap2 := aset st.posMap position (oldList ++ [virtualRoom.id])
    ({ nodes := nodes2, posMap := posMap2 }, some (virtualRoom.id, virtualRoom))

/-- One wall step of the tree builder (`createVirtualRoomIfNeeded`):
perform all skip checks, evictions and the installation, returning the
updated state and the installed child (if any) for the recursive call. -/
def cvrStep (orig : Room) (u : RoomId) (uRoom : Room) (currentOrder : ℕ)
    (wall : Wall) (st : BuildSt) : BuildSt × Option (RoomId × Room) :=
  if uRoom.walls.get wall = false then (st, none)
  else
    let position := getVirtualRoomPosition uRoom wall
    let existing := (alook st.posMap position).getD []
    if position = orig.position ∧ (0 < currentOrder ∨ 0 < uRoom.reflectionOrder) then
      (st, none)
    else if existing ≠ [] then
      if (currentOrder + 1 : WithTop ℕ) ≥ lowestOrderAt st existing then (st, none)
      else
        let st1 := evictAll position existing currentOrder st
        installRoom u (createVirtualRoom uRoom wall position (currentOrder + 1))
          position st1
    else
      installRoom u (createVirtualRoom uRoom wall position (currentOrder + 1))
        position st

/-- Recursive room-tree builder (roomUtils.ts, second `buildRoomTree`):
below `maxOrder`, expand the current node across each of its mirrored
walls in the order top, right, bottom, left, recursing into each newly
installed child. `uRoom` is the room value captured from the node at call
entry (the JS closure reads the node object directly). -/
def buildRoomTree (u : RoomId) (uRoom : Room) (maxOrder currentOrder : ℕ)
    (st : BuildSt) : BuildSt :=
  if maxOrder ≤ currentOrder then st
  else
    match findOriginal st with
    | none => st
    | some orig =>
        let s1 := cvrStep orig u uRoom currentOrder .top st
        let s1b := match s1.2 with
          | some c => buildRoomTree c.1 c.2 maxOrder (currentOrder + 1) s1.1
          | none => s1.1
        let s2 := cvrStep orig u uRoom currentOrder .right s1b
        let s2b := match s2.2 with
          | some c => buildRoomTree c.1 c.2 maxOrder (currentOrder + 1) s2.1
          | none => s2.1
        let s3 := cvrStep orig u uRoom currentOrder .bottom s2b
        let s3b := match s3.2 with
          | some c => buildRoomTree c.1 c.2 maxOrder (currentOrder + 1) s3.1
          | none => s3.1
        let s4 := cvrStep orig u uRoom currentOrder .left s3b
        match s4.2 with
        | some c => buildRoomTree c.1 c.2 maxOrder (currentOrder + 1) s4.1
        | none => s4.1
termination_by maxOrder - currentOrder
decreasing_by
  all_goals omega

/-- Flatten the room tree from node `i` (roomUtils.ts,
`flattenRoomTree`); `fuel` bounds the recursion depth, `maxOrder + 1`
levels suffice for trees produced by the builder. -/
def flattenRoomTree (st : BuildSt) : ℕ → RoomId → List Room
  | 0, _ => []
  | fuel + 1, i =>
      match alook st.nodes i with
      | none => []
      | some nd => nd.room :: nd.children.flatMap (flattenRoomTree st fuel)

/-- Initial builder state: the root room alone, registered in the node
arena and the position map. -/
def initialBuildSt (originalRoom : Room) : BuildSt :=
  { nodes := [(originalRoom.id, ⟨originalRoom, none, []⟩)]
    posMap := [(originalRoom.position, [originalRoom.id])] }

/-- Generate all virtual rooms up to `maxOrder` (roomUtils.ts, second
`generateVirtualRooms`): build the tree, flatten it, and filter out the
original room. `maxOrder = 0` returns the empty list (`maxOrder <= 0` in
the source). -/
def generateVirtualRooms (originalRoom : Room) (maxOrder : ℕ) : List Room :=
  if maxOrder = 0 then []
  else
    let st := buildRoomTree originalRoom.id originalRoom maxOrder 0
      (initialBuildSt originalRoom)
    (flattenRoomTree st (maxOrder + 1) originalRoom.id).filter
      (fun r => r.id ≠ originalRoom.id)

/-- The retained room list of the final room tree: the root together with
the virtual rooms the builder kept. -/
def retainedRooms (originalRoom : Room) (maxOrder : ℕ) : List Room :=
  originalRoom :: generateVirtualRooms originalRoom maxOrder

/-! ### RayRoomIntersector (rayUtils.ts) -/

/-- Extended rationals with two infinities, modelling the JS `-Infinity`
and `Infinity` sentinels of the slab computation. -/
inductive ERat : Type
  | negInf
  | fin (q : ℚ)
  | posInf
deriving DecidableEq, Repr

/-- Strict order on extended rationals (JS `<` on numbers including the
infinities). -/
def ERat.blt : ERat → ERat → Bool
  | .negInf, .negInf => false
  | .negInf, _ => true
  | _, .negInf => false
  | .posInf, _ => false
  | .fin _, .posInf => true
  | .fin a, .fin b => a < b

/-- Maximum of two extended rationals (JS `Math.max`). -/
def ERat.emax (a b : ERat) : ERat := if ERat.blt a b then b else a

/-- Minimum of two extended rationals (JS `Math.min`). -/
def ERat.emin (a b : ERat) : ERat := if ERat.blt b a then b else a

/-- Clamp below by zero and return a rational
(`Math.max(tEnter, 0)`; the `posInf` branch is unreachable for kept
segments because the guard requires `tEnter < 1`). -/
def ERat.maxZeroToRat : ERat → ℚ
  | .negInf => 0
  | .fin q => max q 0
  | .posInf => 0

/-- Clamp above by one and return a rational (`Math.min(tExit, 1)`; the
`negInf` branch is unreachable for kept segments because the guard
requires `0 < tExit`). -/
def ERat.minOneToRat : ERat → ℚ
  | .negInf => 1
  | .fin q => min q 1
  | .posInf => 1

/-- A candidate ray segment before deduplication: parametric interval,
owning room id and reflection order. The source stores
`room.reflectionOrder || Infinity`, which sends order 0 (the root room)
to `Infinity`; this is modelled by `WithTop ℕ`. -/
structure RawSeg : Type where
  t0 : ℚ
  t1 : ℚ
  roomId : RoomId
  ro : WithTop ℕ
deriving DecidableEq, Repr

/-- A returned ray segment (rayUtils.ts drops the reflection order on
return). -/
structure Seg : Type where
  t0 : ℚ
  t1 : ℚ
  roomId : RoomId
deriving DecidableEq, Repr

/-- Per-room slab computation of `findRayRoomIntersections`: the
parametric entry/exit interval of the ray against the room's box, kept
only when it is nonempty and meets `[0,1]`, then clamped to `[0,1]`. -/
def slabSegment (start stop : Pt) (roomSize : ℚ) (room : Room) :
    Option RawSeg :=
  let dx := stop.x - start.x
  let dy := stop.y - start.y
  let left := (room.position.x : ℚ) * roomSize
  let right := left + roomSize
  let top := (room.position.y : ℚ) * roomSize
  let bottom := top + roomSize
  let ux : ERat := if dx ≠ 0 then .fin ((left - start.x) / dx) else .negInf
  let vx : ERat := if dx ≠ 0 then .fin ((right - start.x) / dx) else .posInf
  let tx0 := if ERat.blt vx ux then vx else ux
  let tx1 := if ERat.blt vx ux then ux else vx
  let uy : ERat := if dy ≠ 0 then .fin ((top - start.y) / dy) else .negInf
  let vy : ERat := if dy ≠ 0 then .fin ((bottom - start.y) / dy) else .posInf
  let ty0 := if ERat.blt vy uy then vy else uy
  let ty1 := if ERat.blt vy uy then uy else vy
  let tEnter := ERat.emax tx0 ty0
  let tExit := ERat.emin tx1 ty1
  if ERat.blt tEnter tExit ∧ ERat.blt (.fin 0) tExit ∧ ERat.blt tEnter (.fin 1) then
    some { t0 := tEnter.maxZeroToRat
           t1 := tExit.minOneToRat
           roomId := room.id
           ro := if room.reflectionOrder = 0 then ⊤ else
             (room.reflectionOrder : WithTop ℕ) }
  else none

/-- Sort order of the candidate list: ascending `t0`, ties broken by
ascending reflection order (the source's comparator
`a.t0 !== b.t0 ? a.t0 - b.t0 : a.reflectionOrder - b.reflectionOrder`;
for two `Infinity` orders the comparator yields `NaN`, which the sort
treats as equal, matching `⊤ ≤ ⊤`). -/
def segLE (a b : RawSeg) : Prop :=
  a.t0 < b.t0 ∨ (a.t0 = b.t0 ∧ a.ro ≤ b.ro)

instance : DecidableRel segLE := fun a b => by
  unfold segLE; infer_instance

instance : IsTotal RawSeg segLE where
  total a b := by
    unfold segLE
    rcases lt_trichotomy a.t0 b.t0 with h | h | h
    · exact Or.inl (Or.inl h)
    · rcases le_total a.ro b.ro with h2 | h2
      · exact Or.inl (Or.inr ⟨h, h2⟩)
      · exact Or.inr (Or.inr ⟨h.symm, h2⟩)
    · exact Or.inr (Or.inl h)

instance : IsTrans RawSeg segLE where
  trans a b c hab hbc := by
    unfold segLE at *
    rcases hab with h1 | ⟨h1, h1r⟩ <;> rcases hbc with h2 | ⟨h2, h2r⟩
    · exact Or.inl (lt_trans h1 h2)
    · exact Or.inl (h2 ▸ h1)
    · exact Or.inl (h1 ▸ h2)
    · exact Or.inr ⟨h1.trans h2, h1r.trans h2r⟩

/-- The reflection-order tag stored by the slab computation
(`room.reflectionOrder || Infinity`). -/
def roTag (room : Room) : WithTop ℕ :=
  if room.reflectionOrder = 0 then ⊤ else (room.reflectionOrder : WithTop ℕ)

/-- The deduplication tolerance `EPSILON = 0.0001`. -/
def rayEps : ℚ := 1 / 10000

/-- Both endpoints within tolerance (the `findIndex` predicate of the
deduplication loop). -/
def matchesSeg (s seg : RawSeg) : Bool :=
  |s.t0 - seg.t0| < rayEps ∧ |s.t1 - seg.t1| < rayEps

/-- Insert one sorted candidate into the accumulator: replace the first
tolerance-matching entry when the candidate has strictly lower
reflection order, drop the candidate when a match exists with
equal-or-lower order, append otherwise. -/
def dedupInsert : List RawSeg → RawSeg → List RawSeg
  | [], seg => [seg]
  | s :: rest, seg =>
      if matchesSeg s seg then
        if seg.ro < s.ro then seg :: rest else s :: rest
      else s :: dedupInsert rest seg

/-- Ray/room intersection segments (rayUtils.ts,
`findRayRoomIntersections`): slab intervals of all rooms, sorted by
`(t0, reflectionOrder)` (the JS sort is stable, hence equal to the
stable insertion sort), deduplicated, and stripped of the order. -/
def findRayRoomIntersections (start stop : Pt) (rooms : List Room)
    (roomSize : ℚ) : List Seg :=
  let raw := rooms.filterMap (slabSegment start stop roomSize)
  let sorted := List.insertionSort segLE raw
  let uniq := sorted.foldl dedupInsert []
  uniq.map (fun s => { t0 := s.t0, t1 := s.t1, roomId := s.roomId })

/-- Modelled from the spec: the per-room interval of a ray whose x
direction component is zero, with the x slab treated as `(-∞,+∞)` so that
only the y axis constrains the interval ("treat the axis bound as
(-∞,+∞) so only the orthogonal axis constrains the interval"). -/
def slabSegmentXFree (start stop : Pt) (roomSize : ℚ) (room : Room) :
    Option RawSeg :=
  let dy := stop.y - start.y
  let top := (room.position.y : ℚ) * roomSize
  let bottom := top + roomSize
  let uy : ERat := if dy ≠ 0 then .fin ((top - start.y) / dy) else .negInf
  let vy : ERat := if dy ≠ 0 then .fin ((bottom - start.y) / dy) else .posInf
  let ty0 := if ERat.blt vy uy then vy else uy
  let ty1 := if ERat.blt vy uy then uy else vy
  if ERat.blt ty0 ty1 ∧ ERat.blt (.fin 0) ty1 ∧ ERat.blt ty0 (.fin 1) then
    some { t0 := ty0.maxZeroToRat
           t1 := ty1.minOneToRat
           roomId := room.id
           ro := if room.reflectionOrder = 0 then ⊤ else
             (room.reflectionOrder : WithTop ℕ) }
  else none

/-- Modelled from the spec: the per-room interval of a ray whose y
direction component is zero, with the y slab treated as `(-∞,+∞)` so that
only the x axis constrains the interval. -/
def slabSegmentYFree (start stop : Pt) (roomSize : ℚ) (room : Room) :
    Option RawSeg :=
  let dx := stop.x - start.x
  let left := (room.position.x : ℚ) * roomSize
  let right := left + roomSize
  let ux : ERat := if dx ≠ 0 then .fin ((left - start.x) / dx) else .negInf
  let vx : ERat := if dx ≠ 0 then .fin ((right - start.x) / dx) else .posInf
  let tx0 := if ERat.blt vx ux then vx else ux
  let tx1 := if ERat.blt vx ux then ux else vx
  if ERat.blt tx0 tx1 ∧ ERat.blt (.fin 0) tx1 ∧ ERat.blt tx0 (.fin 1) then
    some { t0 := tx0.maxZeroToRat
           t1 := tx1.minOneToRat
           roomId := room.id
           ro := if room.reflectionOrder = 0 then ⊤ else
             (room.reflectionOrder : WithTop ℕ) }
  else none

/-! ### PathFolder (foldingUtils.ts) -/

/-- Bounding-box membership with the 0.1 tolerance used by `foldRayPath`'s
local `isPointInRoom` closure. -/
def foldPointInRoom (p : Pt) (roomLeft roomRight roomTop roomBottom : ℚ) :
    Bool :=
  p.x ≥ roomLeft - 1/10 && p.x ≤ roomRight + 1/10 &&
  p.y ≥ roomTop - 1/10 && p.y ≤ roomBottom + 1/10

/-- The fold decision of `foldRayPath`'s local `shouldFoldPoint` closure:
points inside the tolerance box fold exactly when the fold wall points
toward the original room at (0,0); points outside the box fold when they
lie within 0.1 of the fold wall's line (the subsequent directional check
of that branch is implied by the distance bound). -/
def shouldFoldPoint (p : Pt) (roomPosition : IPos) (roomSize : ℚ)
    (foldWall : Wall) : Bool :=
  let roomLeft := (roomPosition.x : ℚ) * roomSize
  let roomRight := roomLeft + roomSize
  let roomTop := (roomPosition.y : ℚ) * roomSize
  let roomBottom := roomTop + roomSize
  let targetX : ℤ := if 0 < roomPosition.x then -1 else
    if roomPosition.x < 0 then 1 else 0
  let targetY : ℤ := if 0 < roomPosition.y then -1 else
    if roomPosition.y < 0 then 1 else 0
  if foldPointInRoom p roomLeft roomRight roomTop roomBottom then
    match foldWall with
    | .top => decide (targetY < 0)
    | .right => decide (0 < targetX)
    | .bottom => decide (0 < targetY)
    | .left => decide (targetX < 0)
  else
    let isOnBoundary :=
      (foldWall = Wall.top ∧ |p.y - roomTop| < 1/10) ∨
      (foldWall = Wall.right ∧ |p.x - roomRight| < 1/10) ∨
      (foldWall = Wall.bottom ∧ |p.y - roomBottom| < 1/10) ∨
      (foldWall = Wall.left ∧ |p.x - roomLeft| < 1/10)
    if isOnBoundary then
      match foldWall with
      | .top => decide (p.y ≤ roomTop + 1/10)
      | .right => decide (p.x ≥ roomRight - 1/10)
      | .bottom => decide (p.y ≥ roomBottom - 1/10)
      | .left => decide (p.x ≤ roomLeft + 1/10)
    else false

/-- Fold a ray path across one wall of the room at `roomPosition`
(foldingUtils.ts, `foldRayPath`): each point that should fold is replaced
by its reflection, all other points pass through unchanged. -/
def foldRayPath (rayPoints : List Pt) (roomPosition : IPos)
    (roomSize : ℚ) (foldWall : Wall) : List Pt :=
  rayPoints.map (fun p =>
    if shouldFoldPoint p roomPosition roomSize foldWall then
      reflectPointAcrossWall p roomPosition roomSize foldWall
    else p)

/-- Linear interpolation of the fold animation
(`calculateTransformedPoints`: `x + (finalX - x) * progress`). -/
def lerpPt (a b : Pt) (progress : ℚ) : Pt :=
  { x := a.x + (b.x - a.x) * progress, y := a.y + (b.y - a.y) * progress }

/-! ### ObjectProjector (reflectionUtils.ts) -/

/-- Object ids: real ids are atoms; the id of a virtual object records
the real object and the target room
(`virtual-${realObject.id}-in-${virtualRoom.id}`). -/
inductive ObjId : Type
  | base (n : ℕ)
  | virtualIn (o : ObjId) (r : RoomId)
deriving DecidableEq, Repr

/-- A placed object (models the TS `PlacedObject`). -/
structure PlacedObject : Type where
  id : ObjId
  position : Pt
  isVirtual : Bool
  roomId : RoomId
deriving DecidableEq, Repr

/-- Walls reflected across on the way from the original room to
`virtualRoom`, in root-to-leaf order (reflectionUtils.ts,
`getReflectionPathWalls`); the walk ascends parent links, so fuel bounds
the walk length (the source terminates when the ancestry is acyclic). -/
def getReflectionPathWalls (fuel : ℕ) (virtualRoom : Room)
    (allRooms : List Room) (originalRoom : Room) : List Wall :=
  if virtualRoom.id = originalRoom.id then []
  else
    match fuel with
    | 0 => []
    | fuel + 1 =>
        match virtualRoom.reflectionWall, virtualRoom.parentRoomId with
        | some w, some pid =>
            match allRooms.find? (fun r => r.id = pid) with
            | some parent => getReflectionPathWalls fuel parent allRooms originalRoom ++ [w]
            | none => [w]
        | _, _ => []

/-- Project real objects into the virtual rooms (reflectionUtils.ts,
`placeVirtualObjects`): order-1 rooms use the room's own reflection
wall and dimensions; higher orders apply the whole reflection path using
the original room's dimensions for every step. -/
def placeVirtualObjects (objects : List PlacedObject)
    (virtualRooms : List Room) (originalRoom : Room) : List PlacedObject :=
  let realObjects := objects.filter (fun o => !o.isVirtual)
  virtualRooms.flatMap (fun vr =>
    realObjects.map (fun robj =>
      let reflectedPosition :=
        match vr.reflectionWall with
        | none => robj.position
        | some w =>
            if vr.reflectionOrder = 1 then
              reflectObjectPosition robj.position vr.width vr.height w
            else
              (getReflectionPathWalls (virtualRooms.length + 1) vr
                  virtualRooms originalRoom).foldl
                (fun pos wall =>
                  reflectObjectPosition pos originalRoom.width
                    originalRoom.height wall)
                robj.position
      { id := ObjId.virtualIn robj.id vr.id
        position := reflectedPosition
        isVirtual := true
        roomId := vr.id }))

/-! ### Point-in-room test (roomUtils.ts) -/

/-- Half-open point-in-room test (roomUtils.ts, `isPointInRoom`). -/
def isPointInRoom (point : Pt) (room : Room) : Bool :=
  point.x ≥ (room.position.x : ℚ) &&
  point.x < (room.position.x : ℚ) + room.width &&
  point.y ≥ (room.position.y : ℚ) &&
  point.y < (room.position.y : ℚ) + room.height

/-! ### Compositions of mirror reflections (specification side, for the
dominance claim) -/

/-- One grid step across a wall. -/
def stepPos (p : IPos) : Wall → IPos
  | .top => { x := p.x, y := p.y - 1 }
  | .right => { x := p.x + 1, y := p.y }
  | .bottom => { x := p.x, y := p.y + 1 }
  | .left => { x := p.x - 1, y := p.y }

/-- Compositions of mirror-wall reflections from the root: `ReachCfg root
n p cfg` holds when some sequence of `n` reflections, each across a wall
that is mirrored in the configuration current at that step, leads from
the root's cell to cell `p` with wall configuration `cfg`. -/
inductive ReachCfg (root : Room) : ℕ → IPos → WallCfg → Prop
  | zero : ReachCfg root 0 root.position root.walls
  | step {n : ℕ} {p : IPos} {cfg : WallCfg} (w : Wall) :
      ReachCfg root n p cfg → cfg.get w = true →
      ReachCfg root (n + 1) (stepPos p w) (getVirtualRoomWalls cfg w)

/-- A cell is reachable by some composition of `n` mirror reflections. -/
def ReachesCell (root : Room) (n : ℕ) (p : IPos) : Prop :=
  ∃ cfg, ReachCfg root n p cfg

/-- A concrete 4×4 root room with mirrors on top, right and left (the
specification's concrete scenario configuration). -/
def sampleRoot : Room :=
  { id := .original
    width := 4
    height := 4
    walls := { top := true, right := true, bottom := false, left := true }
    position := { x := 0, y := 0 }
    reflectionOrder := 0
    reflectionWall := none
    parentRoomId := none }

/-- The flattened fold condition of `foldRayPath`: a point folds exactly
when it lies in the room's bounding box expanded by the 0.1 tolerance
while the fold wall faces the original room at (0,0), or it lies outside
that box but within 0.1 of the fold wall's line. -/
def foldCondition (p : Pt) (pos : IPos) (s : ℚ) (w : Wall) : Bool :=
  let roomLeft := (pos.x : ℚ) * s
  let roomRight := roomLeft + s
  let roomTop := (pos.y : ℚ) * s
  let roomBottom := roomTop + s
  let inTolBox := decide (roomLeft - 1/10 ≤ p.x) &&
    decide (p.x ≤ roomRight + 1/10) && decide (roomTop - 1/10 ≤ p.y) &&
    decide (p.y ≤ roomBottom + 1/10)
  let faces := match w with
    | .top => decide (0 < pos.y)
    | .right => decide (pos.x < 0)
    | .bottom => decide (pos.y < 0)
    | .left => decide (0 < pos.x)
  let nearLine := match w with
    | .top => decide (|p.y - roomTop| < 1/10)
    | .right => decide (|p.x - roomRight| < 1/10)
    | .bottom => decide (|p.y - roomBottom| < 1/10)
    | .left => decide (|p.x - roomLeft| < 1/10)
  (inTolBox && faces) || (!inTolBox && nearLine)

/-! ### Specification-side apparatus for the tree-builder claims.

The builder's room values are fully determined by their path ids: the
functions below compute, for a given root room, the position, parent and
whole room value a live node with a given id must carry. They are used
to state the builder invariant. -/

/-- Length of an id path. -/
def idDepth : RoomId → ℕ
  | .original => 0
  | .child p _ _ => idDepth p + 1

/-- The parent id determined by an id (the root has none). -/
def parentOfId (root : Room) (i : RoomId) : Option RoomId :=
  if i = root.id then none
  else match i with
    | .original => none
    | .child p _ _ => some p

/-- The grid position determined by an id path. -/
def posOfId (root : Room) : RoomId → IPos
  | .original => root.position
  | .child p w k =>
      if RoomId.child p w k = root.id then root.position
      else stepPos (posOfId root p) w

/-- Whether the left/right mirror pair is swapped at a cell (odd
horizontal distance from the root cell). -/
def flipX (root : Room) (p : IPos) : Bool :=
  decide ((p.x - root.position.x) % 2 ≠ 0)

/-- Whether the top/bottom mirror pair is swapped at a cell (odd
vertical distance from the root cell). -/
def flipY (root : Room) (p : IPos) : Bool :=
  decide ((p.y - root.position.y) % 2 ≠ 0)

/-- The wall configuration any composition of reflections produces at a
cell: each mirror pair is swapped exactly when the corresponding
distance parity is odd. -/
def configFor (root : Room) (p : IPos) : WallCfg :=
  { top := if flipY root p then root.walls.bottom else root.walls.top
    bottom := if flipY root p then root.walls.top else root.walls.bottom
    left := if flipX root p then root.walls.right else root.walls.left
    right := if flipX root p then root.walls.left else root.walls.right }

/-- The full room value determined by an id path. -/
def roomOfId (root : Room) : RoomId → Room
  | .original => root
  | .child p w k =>
      if RoomId.child p w k = root.id then root
      else
        { id := .child p w k
          width := root.width
          height := root.height
          walls := configFor root (stepPos (posOfId root p) w)
          position := stepPos (posOfId root p) w
          reflectionOrder := k
          reflectionWall := some w
          parentRoomId := some p }

/-- Iterated parent pointers in a builder state. -/
def parentIter (st : BuildSt) : ℕ → RoomId → Option RoomId
  | 0, j => some j
  | m + 1, j =>
      match alook st.nodes j with
      | none => none
      | some nd =>
          match nd.parent with
          | none => none
          | some p => parentIter st m p

/-- Some live room sits at position `p` with reflection order at most
`m`. -/
def OccLe (st : BuildSt) (p : IPos) (m : ℕ) : Prop :=
  ∃ i nd, alook st.nodes i = some nd ∧ nd.room.position = p ∧
    nd.room.reflectionOrder ≤ m

/-- Every node of order at most `k` survives with the same room value. -/
def Preserves (k : ℕ) (st stB : BuildSt) : Prop :=
  ∀ i nd, alook st.nodes i = some nd → nd.room.reflectionOrder ≤ k →
    ∃ nd2, alook stB.nodes i = some nd2 ∧ nd2.room = nd.room

/-- Cell occupancy only improves. -/
def Mono (st stB : BuildSt) : Prop :=
  ∀ p m, OccLe st p m → OccLe stB p m

/-- Every mirrored wall of the room leads back to the root cell or to a
cell occupied with order at most one more. -/
def Expanded (root : Room) (st : BuildSt) (r : Room) : Prop :=
  ∀ w, r.walls.get w = true →
    stepPos r.position w = root.position ∨
      OccLe st (stepPos r.position w) (r.reflectionOrder + 1)

/-- Every node newly live in `stB` (relative to `st`) of order below
`mo` is expanded in `stB`. -/
def NewExpanded (root : Room) (mo : ℕ) (st stB : BuildSt) : Prop :=
  ∀ i nd, alook stB.nodes i = some nd → alook st.nodes i = none →
    nd.room.reflectionOrder < mo → Expanded root stB nd.room

/-- The per-wall expansion obligation after one `cvrStep`. -/
def WallDone (root : Room) (st : BuildSt) (uRoom : Room) (w : Wall)
    (c : ℕ) : Prop :=
  uRoom.walls.get w = false ∨ stepPos uRoom.position w = root.position ∨
    OccLe st (stepPos uRoom.position w) (c + 1)

/-- The builder-state invariant (for a root of reflection order 0 and
order cap `mo`): every live node's room is determined by its id path,
ids are at least as deep as the root's, live nodes are recorded in the
position map at their determined position, recorded ids determine their
position key, positions of live nodes are unique, every live room is
realizable by a composition of mirror reflections, orders are capped by
`mo`, children lists are duplicate-free and point to live nodes that
point back, parent pointers are the id-determined ones, and the root
node is the first arena entry. -/
structure BInv (root : Room) (mo : ℕ) (st : BuildSt) : Prop where
  rootOrd : root.reflectionOrder = 0
  det : ∀ i nd, alook st.nodes i = some nd → nd.room = roomOfId root i
  depthInv : ∀ i nd, alook st.nodes i = some nd →
    idDepth root.id ≤ idDepth i
  complete : ∀ i nd, alook st.nodes i = some nd →
    i ∈ (alook st.posMap (posOfId root i)).getD []
  listedDet : ∀ p l, alook st.posMap p = some l → ∀ i ∈ l,
    posOfId root i = p
  uniq : ∀ i j ni nj, alook st.nodes i = some ni →
    alook st.nodes j = some nj → ni.room.position = nj.room.position →
    i = j
  reach : ∀ i nd, alook st.nodes i = some nd →
    ReachCfg root nd.room.reflectionOrder nd.room.position nd.room.walls
  ordBound : ∀ i nd, alook st.nodes i = some nd →
    nd.room.reflectionOrder ≤ mo
  childNodup : ∀ i nd, alook st.nodes i = some nd → nd.children.Nodup
  childLive : ∀ i nd, alook st.nodes i = some nd → ∀ c ∈ nd.children,
    ∃ cnd, alook st.nodes c = some cnd ∧ cnd.parent = some i
  parentDet : ∀ i nd, alook st.nodes i = some nd →
    nd.parent = parentOfId root i
  rootFirst : ∃ nd, st.nodes.head? = some (root.id, nd)

/-! ## Claim theorems -/

/-- C4: applying the point reflection twice with the same wall and room
parameters returns the original point exactly, and applying the
wall-configuration reflection twice with the same wall returns the
original configuration exactly. -/
theorem reflection_involutions :
    (∀ (p : Pt) (w : Wall) (pos : Pt) (s : ℚ),
      reflectPointOverWall (reflectPointOverWall p w pos s) w pos s = p) ∧
    (∀ (cfg : WallCfg) (w : Wall),
      getVirtualRoomWalls (getVirtualRoomWalls cfg w) w = cfg) := by
  constructor
  · intro p w pos s
    cases p with
    | mk px py => cases w <;> simp [reflectPointOverWall]
  · intro cfg w
    cases cfg
    cases w <;> rfl

/-- C5 (amended): building the virtual-room list with `maxOrder = 0`
yields the empty list; the root room itself is never part of the
returned list. -/
theorem generateVirtualRooms_zero (root : Room) :
    generateVirtualRooms root 0 = [] := rfl

/-- C5 counterexample: with `maxOrder = 0` the builder does not return
the singleton list containing the root room, contrary to the claim that
it "yields just the root". -/
theorem generateVirtualRooms_zero_not_root :
    generateVirtualRooms sampleRoot 0 ≠ [sampleRoot] := by
  simp [generateVirtualRooms]

/-- C7: a real object at grid position (1,1) of a 4×4 room projects into
the first-order virtual room across the top wall at virtual position
(1,2), matching the formula `y' = height − y − 1`. -/
theorem project_topFirstOrder_scenario :
    reflectObjectPosition { x := 1, y := 1 } 4 4 .top = { x := 1, y := 2 } ∧
    (placeVirtualObjects
        [{ id := .base 0, position := { x := 1, y := 1 }, isVirtual := false,
           roomId := .original }]
        [createVirtualRoom sampleRoot .top { x := 0, y := -1 } 1]
        sampleRoot).map (fun o => o.position) = [{ x := 1, y := 2 }] := by
  constructor
  · show Pt.mk 1 (4 - 1 - 1) = Pt.mk 1 2
    norm_num
  · norm_num [placeVirtualObjects, createVirtualRoom, sampleRoot,
      reflectObjectPosition, getVirtualRoomWalls, generateRoomId,
      List.filter, List.flatMap]

/-- C9: `isPointInRoom` is half-open — a point on the left or top edge
(with the other coordinate in range) is inside; a point on the right or
bottom edge is outside. -/
theorem isPointInRoom_halfOpen (p : Pt) (r : Room) (hw : 0 < r.width)
    (hh : 0 < r.height) :
    (p.x = (r.position.x : ℚ) → (r.position.y : ℚ) ≤ p.y →
      p.y < (r.position.y : ℚ) + r.height → isPointInRoom p r = true) ∧
    (p.y = (r.position.y : ℚ) → (r.position.x : ℚ) ≤ p.x →
      p.x < (r.position.x : ℚ) + r.width → isPointInRoom p r = true) ∧
    (p.x = (r.position.x : ℚ) + r.width → isPointInRoom p r = false) ∧
    (p.y = (r.position.y : ℚ) + r.height → isPointInRoom p r = false) := by
  refine ⟨fun hx hy1 hy2 => ?_, fun hy hx1 hx2 => ?_, fun hx => ?_, fun hy => ?_⟩
  · simp [isPointInRoom, hx, hy1, hy2]
    exact hw
  · simp [isPointInRoom, hy, hx1, hx2]
    exact hh
  · simp [isPointInRoom, hx]
  · simp [isPointInRoom, hy]

/-- C9 witness: in the concrete 4×4 room at the origin, the point (0,1)
on the left edge is inside and the point (4,1) on the right edge is
outside. -/
theorem isPointInRoom_halfOpen_witness :
    isPointInRoom { x := 0, y := 1 } sampleRoot = true ∧
    isPointInRoom { x := 4, y := 1 } sampleRoot = false :=
  ⟨(isPointInRoom_halfOpen { x := 0, y := 1 } sampleRoot (by norm_num [sampleRoot])
        (by norm_num [sampleRoot])).1 (by norm_num [sampleRoot])
      (by norm_num [sampleRoot]) (by norm_num [sampleRoot]),
    (isPointInRoom_halfOpen { x := 4, y := 1 } sampleRoot (by norm_num [sampleRoot])
        (by norm_num [sampleRoot])).2.2.1 (by norm_num [sampleRoot])⟩

/-- Maximum of `-∞` and anything is the other argument. -/
theorem ERat.emax_negInf (b : ERat) : ERat.emax .negInf b = b := by
  cases b <;> rfl

/-- Minimum of `+∞` and anything is the other argument. -/
theorem ERat.emin_posInf (b : ERat) : ERat.emin .posInf b = b := by
  cases b <;> rfl

/-- C8: for a ray with zero x direction component the intersector's
x slab is the unconstrained `(-∞,+∞)`, so the per-room interval is
exactly the y-axis interval; symmetrically for a zero y component. In
both cases the computation yields a result (an optional kept segment)
rather than failing. -/
theorem slabSegment_axisParallel (start stop : Pt) (roomSize : ℚ)
    (room : Room) :
    (start.x = stop.x →
      slabSegment start stop roomSize room =
        slabSegmentXFree start stop roomSize room) ∧
    (start.y = stop.y →
      slabSegment start stop roomSize room =
        slabSegmentYFree start stop roomSize room) := by
  constructor
  · intro h
    have hdx : stop.x - start.x = 0 := by rw [h]; ring
    simp [slabSegment, slabSegmentXFree, hdx, ERat.blt, ERat.emax_negInf,
      ERat.emin_posInf]
  · intro h
    have hdy : stop.y - start.y = 0 := by rw [h]; ring
    have hmax : ∀ a : ERat, ERat.emax a .negInf = a := by
      intro a; cases a <;> rfl
    have hmin : ∀ a : ERat, ERat.emin a .posInf = a := by
      intro a; cases a <;> rfl
    simp [slabSegment, slabSegmentYFree, hdy, ERat.blt, hmax, hmin]

/-- C8 witness: a concrete vertical ray against a concrete room. -/
theorem slabSegment_axisParallel_witness :
    slabSegment { x := 1, y := 0 } { x := 1, y := 5 } 1 sampleRoot =
      slabSegmentXFree { x := 1, y := 0 } { x := 1, y := 5 } 1 sampleRoot :=
  (slabSegment_axisParallel { x := 1, y := 0 } { x := 1, y := 5 } 1
    sampleRoot).1 rfl

/-- Target sign condition across the top wall. -/
theorem targY1 (pos : IPos) :
    ((if 0 < pos.y then (-1 : ℤ) else if pos.y < 0 then 1 else 0) < 0) ↔
      0 < pos.y := by
  split_ifs <;> omega

/-- Target sign condition across the bottom wall. -/
theorem targY2 (pos : IPos) :
    (0 < (if 0 < pos.y then (-1 : ℤ) else if pos.y < 0 then 1 else 0)) ↔
      pos.y < 0 := by
  split_ifs <;> omega

/-- Target sign condition across the left wall. -/
theorem targX1 (pos : IPos) :
    ((if 0 < pos.x then (-1 : ℤ) else if pos.x < 0 then 1 else 0) < 0) ↔
      0 < pos.x := by
  split_ifs <;> omega

/-- Target sign condition across the right wall. -/
theorem targX2 (pos : IPos) :
    (0 < (if 0 < pos.x then (-1 : ℤ) else if pos.x < 0 then 1 else 0)) ↔
      pos.x < 0 := by
  split_ifs <;> omega

set_option maxHeartbeats 1000000 in
/-- The source's fold decision coincides with the flattened
`foldCondition`. -/
theorem shouldFoldPoint_iff (p : Pt) (pos : IPos) (s : ℚ) (w : Wall) :
    shouldFoldPoint p pos s w = foldCondition p pos s w := by
  have hfb : ¬ ((pos.x : ℚ) * s - 1/10 ≤ p.x ∧
      p.x ≤ (pos.x : ℚ) * s + s + 1/10 ∧ (pos.y : ℚ) * s - 1/10 ≤ p.y ∧
      p.y ≤ (pos.y : ℚ) * s + s + 1/10) →
      (decide ((pos.x : ℚ) * s - 1/10 ≤ p.x) &&
        decide (p.x ≤ (pos.x : ℚ) * s + s + 1/10) &&
        decide ((pos.y : ℚ) * s - 1/10 ≤ p.y) &&
        decide (p.y ≤ (pos.y : ℚ) * s + s + 1/10)) = false := by
    intro hbox
    rw [Bool.eq_false_iff]
    intro hcontra
    simp only [Bool.and_eq_true, decide_eq_true_eq] at hcontra
    exact hbox ⟨hcontra.1.1.1, hcontra.1.1.2, hcontra.1.2, hcontra.2⟩
  cases w with
  | top =>
      simp only [shouldFoldPoint, foldCondition, foldPointInRoom, targY1,
        targY2, targX1, targX2, ge_iff_le]
      by_cases hbox : ((pos.x : ℚ) * s - 1/10 ≤ p.x ∧
          p.x ≤ (pos.x : ℚ) * s + s + 1/10 ∧ (pos.y : ℚ) * s - 1/10 ≤ p.y ∧
          p.y ≤ (pos.y : ℚ) * s + s + 1/10)
      · simp only [hbox.1, hbox.2.1, hbox.2.2.1, hbox.2.2.2, decide_True,
          Bool.and_self, Bool.true_and, if_true, Bool.not_true,
          Bool.false_and, Bool.or_false]
      · rw [hfb hbox]
        simp only [Bool.false_and, Bool.not_false, Bool.true_and,
          Bool.false_or, Bool.false_eq_true, if_false]
        by_cases hb : |p.y - (pos.y : ℚ) * s| < 1/10
        · have h2 : p.y ≤ (pos.y : ℚ) * s + 1/10 := by
            have := (abs_lt.mp hb).2; linarith
          simp [hb, h2]
          try (intro h3; linarith)
        · simp [hb]
          try (intro h3; linarith)
  | right =>
      simp only [shouldFoldPoint, foldCondition, foldPointInRoom, targY1,
        targY2, targX1, targX2, ge_iff_le]
      by_cases hbox : ((pos.x : ℚ) * s - 1/10 ≤ p.x ∧
          p.x ≤ (pos.x : ℚ) * s + s + 1/10 ∧ (pos.y : ℚ) * s - 1/10 ≤ p.y ∧
          p.y ≤ (pos.y : ℚ) * s + s + 1/10)
      · simp only [hbox.1, hbox.2.1, hbox.2.2.1, hbox.2.2.2, decide_True,
          Bool.and_self, Bool.true_and, if_true, Bool.not_true,
          Bool.false_and, Bool.or_false]
      · rw [hfb hbox]
        simp only [Bool.false_and, Bool.not_false, Bool.true_and,
          Bool.false_or, Bool.false_eq_true, if_false]
        by_cases hb : |p.x - ((pos.x : ℚ) * s + s)| < 1/10
        · have h2 : (pos.x : ℚ) * s + s - 1/10 ≤ p.x := by
            have := (abs_lt.mp hb).1; linarith
          simp [hb, h2]
          try (intro h3; linarith)
        · simp [hb]
          try (intro h3; linarith)
  | bottom =>
      simp only [shouldFoldPoint, foldCondition, foldPointInRoom, targY1,
        targY2, targX1, targX2, ge_iff_le]
      by_cases hbox : ((pos.x : ℚ) * s - 1/10 ≤ p.x ∧
          p.x ≤ (pos.x : ℚ) * s + s + 1/10 ∧ (pos.y : ℚ) * s - 1/10 ≤ p.y ∧
          p.y ≤ (pos.y : ℚ) * s + s + 1/10)
      · simp only [hbox.1, hbox.2.1, hbox.2.2.1, hbox.2.2.2, decide_True,
          Bool.and_self, Bool.true_and, if_true, Bool.not_true,
          Bool.false_and, Bool.or_false]
      · rw [hfb hbox]
        simp only [Bool.false_and, Bool.not_false, Bool.true_and,
          Bool.false_or, Bool.false_eq_true, if_false]
        by_cases hb : |p.y - ((pos.y : ℚ) * s + s)| < 1/10
        · have h2 : (pos.y : ℚ) * s + s - 1/10 ≤ p.y := by
            have := (abs_lt.mp hb).1; linarith
          simp [hb, h2]
          try (intro h3; linarith)
        · simp [hb]
          try (intro h3; linarith)
  | left =>
      simp only [shouldFoldPoint, foldCondition, foldPointInRoom, targY1,
        targY2, targX1, targX2, ge_iff_le]
      by_cases hbox : ((pos.x : ℚ) * s - 1/10 ≤ p.x ∧
          p.x ≤ (pos.x : ℚ) * s + s + 1/10 ∧ (pos.y : ℚ) * s - 1/10 ≤ p.y ∧
          p.y ≤ (pos.y : ℚ) * s + s + 1/10)
      · simp only [hbox.1, hbox.2.1, hbox.2.2.1, hbox.2.2.2, decide_True,
          Bool.and_self, Bool.true_and, if_true, Bool.not_true,
          Bool.false_and, Bool.or_false]
      · rw [hfb hbox]
        simp only [Bool.false_and, Bool.not_false, Bool.true_and,
          Bool.false_or, Bool.false_eq_true, if_false]
        by_cases hb : |p.x - (pos.x : ℚ) * s| < 1/10
        · have h2 : p.x ≤ (pos.x : ℚ) * s + 1/10 := by
            have := (abs_lt.mp hb).2; linarith
          simp [hb, h2]
          try (intro h3; linarith)
        · simp [hb]
          try (intro h3; linarith)

/-- C6 (amended): a fold step reflects exactly the points satisfying
`foldCondition` — within the 0.1-expanded bounding box of the folded room
when the fold wall faces the original room, or within 0.1 of the fold
wall's line — and leaves every other point unchanged; committing the
interpolation at `progress = 1` equals the exact reflection. -/
theorem foldRayPath_characterization (pts : List Pt) (pos : IPos) (s : ℚ)
    (w : Wall) :
    foldRayPath pts pos s w = pts.map (fun p =>
      if foldCondition p pos s w then reflectPointAcrossWall p pos s w
      else p) ∧
    ∀ a b : Pt, lerpPt a b 1 = b := by
  constructor
  · unfold foldRayPath
    refine List.map_congr_left (fun p _ => ?_)
    rw [shouldFoldPoint_iff]
  · intro a b
    cases a; cases b
    simp [lerpPt]

/-- C6 counterexample: the point (1/2, 93/100) lies outside the room at
grid cell (0,1) with room size 1 (its box is `[0,1] × [1,2]`), yet the
fold step across the top wall does not return it unchanged — the 0.1
tolerance folds it. -/
theorem foldRayPath_moves_outside_point :
    ((93 : ℚ) / 100 < ((1 : ℤ) : ℚ) * 1) ∧
    foldRayPath [{ x := 1/2, y := 93/100 }] { x := 0, y := 1 } 1 .top ≠
      [{ x := 1/2, y := 93/100 }] := by
  constructor
  · norm_num
  · norm_num [foldRayPath, shouldFoldPoint, foldPointInRoom,
      reflectPointAcrossWall]

/-! ## Ray intersector: slab characterizations -/

/-- Comparison of finite extended rationals. -/
theorem ERat.blt_fin_fin (a b : ℚ) :
    ERat.blt (.fin a) (.fin b) = decide (a < b) := rfl

/-- Maximum of finite extended rationals. -/
theorem ERat.emax_fin_fin (a b : ℚ) :
    ERat.emax (.fin a) (.fin b) = .fin (max a b) := by
  unfold ERat.emax
  rw [ERat.blt_fin_fin]
  by_cases h : a < b
  · simp [h, max_eq_right h.le]
  · simp [h, max_eq_left (not_lt.mp h)]

/-- Minimum of finite extended rationals. -/
theorem ERat.emin_fin_fin (a b : ℚ) :
    ERat.emin (.fin a) (.fin b) = .fin (min a b) := by
  unfold ERat.emin
  rw [ERat.blt_fin_fin]
  by_cases h : b < a
  · simp [h, min_eq_right h.le]
  · simp [h, min_eq_left (not_lt.mp h)]

/-- Slab computation when both direction components vanish: every room
yields the full interval `[0,1]`. -/
theorem slabSegment_zero_zero (start stop : Pt) (s : ℚ) (room : Room)
    (hdx : stop.x - start.x = 0) (hdy : stop.y - start.y = 0) :
    slabSegment start stop s room =
      some { t0 := 0, t1 := 1, roomId := room.id, ro := roTag room } := by
  unfold slabSegment roTag
  simp [hdx, hdy, ERat.blt, ERat.emax, ERat.emin, ERat.maxZeroToRat,
    ERat.minOneToRat]

/-- Slab computation for a horizontal-only ray (`dy = 0`, `dx ≠ 0`): the
interval is the x-axis slab alone. -/
theorem slabSegment_x_only (start stop : Pt) (s : ℚ) (room : Room)
    (hdx : stop.x - start.x ≠ 0) (hdy : stop.y - start.y = 0) :
    slabSegment start stop s room =
      (let u := ((room.position.x : ℚ) * s - start.x) / (stop.x - start.x)
       let v := ((room.position.x : ℚ) * s + s - start.x) / (stop.x - start.x)
       if min u v < max u v ∧ 0 < max u v ∧ min u v < 1 then
         some { t0 := max (min u v) 0, t1 := min (max u v) 1,
                roomId := room.id, ro := roTag room }
       else none) := by
  unfold slabSegment roTag
  simp only [hdy, hdx, ite_true, ite_false, ne_eq, not_true_eq_false,
    not_false_eq_true, if_false, if_true]
  set u := ((room.position.x : ℚ) * s - start.x) / (stop.x - start.x) with hu
  set v := ((room.position.x : ℚ) * s + s - start.x) / (stop.x - start.x)
    with hv
  by_cases hc : v < u
  · simp [hc, ERat.blt, ERat.emax, ERat.emin, ERat.maxZeroToRat,
      ERat.minOneToRat, min_eq_right hc.le, max_eq_left hc.le]
  · simp [hc, ERat.blt, ERat.emax, ERat.emin, ERat.maxZeroToRat,
      ERat.minOneToRat, min_eq_left (not_lt.mp hc), max_eq_right (not_lt.mp hc)]

/-- Slab computation for a vertical-only ray (`dx = 0`, `dy ≠ 0`): the
interval is the y-axis slab alone. -/
theorem slabSegment_y_only (start stop : Pt) (s : ℚ) (room : Room)
    (hdx : stop.x - start.x = 0) (hdy : stop.y - start.y ≠ 0) :
    slabSegment start stop s room =
      (let u := ((room.position.y : ℚ) * s - start.y) / (stop.y - start.y)
       let v := ((room.position.y : ℚ) * s + s - start.y) / (stop.y - start.y)
       if min u v < max u v ∧ 0 < max u v ∧ min u v < 1 then
         some { t0 := max (min u v) 0, t1 := min (max u v) 1,
                roomId := room.id, ro := roTag room }
       else none) := by
  unfold slabSegment roTag
  simp only [hdy, hdx, ite_true, ite_false, ne_eq, not_true_eq_false,
    not_false_eq_true, if_false, if_true]
  set u := ((room.position.y : ℚ) * s - start.y) / (stop.y - start.y) with hu
  set v := ((room.position.y : ℚ) * s + s - start.y) / (stop.y - start.y)
    with hv
  by_cases hc : v < u
  · simp [hc, ERat.blt, ERat.emax, ERat.emin, ERat.maxZeroToRat,
      ERat.minOneToRat, min_eq_right hc.le, max_eq_left hc.le]
  · simp [hc, ERat.blt, ERat.emax, ERat.emin, ERat.maxZeroToRat,
      ERat.minOneToRat, min_eq_left (not_lt.mp hc), max_eq_right (not_lt.mp hc)]

/-- Slab computation for a general ray (`dx ≠ 0`, `dy ≠ 0`): the interval
is the intersection of the two axis slabs. -/
theorem slabSegment_xy (start stop : Pt) (s : ℚ) (room : Room)
    (hdx : stop.x - start.x ≠ 0) (hdy : stop.y - start.y ≠ 0) :
    slabSegment start stop s room =
      (let ux := ((room.position.x : ℚ) * s - start.x) / (stop.x - start.x)
       let vx := ((room.position.x : ℚ) * s + s - start.x) / (stop.x - start.x)
       let uy := ((room.position.y : ℚ) * s - start.y) / (stop.y - start.y)
       let vy := ((room.position.y : ℚ) * s + s - start.y) / (stop.y - start.y)
       let tEnter := max (min ux vx) (min uy vy)
       let tExit := min (max ux vx) (max uy vy)
       if tEnter < tExit ∧ 0 < tExit ∧ tEnter < 1 then
         some { t0 := max tEnter 0, t1 := min tExit 1,
                roomId := room.id, ro := roTag room }
       else none) := by
  unfold slabSegment roTag
  simp only [hdy, hdx, ite_true, ite_false, ne_eq, not_true_eq_false,
    not_false_eq_true, if_false, if_true]
  set ux := ((room.position.x : ℚ) * s - start.x) / (stop.x - start.x)
    with hux
  set vx := ((room.position.x : ℚ) * s + s - start.x) / (stop.x - start.x)
    with hvx
  set uy := ((room.position.y : ℚ) * s - start.y) / (stop.y - start.y)
    with huy
  set vy := ((room.position.y : ℚ) * s + s - start.y) / (stop.y - start.y)
    with hvy
  by_cases hcx : vx < ux <;> by_cases hcy : vy < uy
  · simp [hcx, hcy, ERat.blt, ERat.emax_fin_fin, ERat.emin_fin_fin,
      ERat.blt_fin_fin, ERat.maxZeroToRat, ERat.minOneToRat,
      min_eq_right hcx.le, max_eq_left hcx.le, min_eq_right hcy.le,
      max_eq_left hcy.le]
  · simp [hcx, hcy, ERat.blt, ERat.emax_fin_fin, ERat.emin_fin_fin,
      ERat.blt_fin_fin, ERat.maxZeroToRat, ERat.minOneToRat,
      min_eq_right hcx.le, max_eq_left hcx.le,
      min_eq_left (not_lt.mp hcy), max_eq_right (not_lt.mp hcy)]
  · simp [hcx, hcy, ERat.blt, ERat.emax_fin_fin, ERat.emin_fin_fin,
      ERat.blt_fin_fin, ERat.maxZeroToRat, ERat.minOneToRat,
      min_eq_left (not_lt.mp hcx), max_eq_right (not_lt.mp hcx),
      min_eq_right hcy.le, max_eq_left hcy.le]
  · simp [hcx, hcy, ERat.blt, ERat.emax_fin_fin, ERat.emin_fin_fin,
      ERat.blt_fin_fin, ERat.maxZeroToRat, ERat.minOneToRat,
      min_eq_left (not_lt.mp hcx), max_eq_right (not_lt.mp hcx),
      min_eq_left (not_lt.mp hcy), max_eq_right (not_lt.mp hcy)]

/-- Clamped nonempty intervals stay inside `[0,1]` and nonempty. -/
theorem clamp_bounds {e f : ℚ} (h1 : e < f) (h2 : 0 < f) (h3 : e < 1) :
    0 ≤ max e 0 ∧ max e 0 < min f 1 ∧ min f 1 ≤ 1 :=
  ⟨le_max_right e 0,
    lt_min_iff.mpr ⟨max_lt_iff.mpr ⟨h1, h2⟩, max_lt_iff.mpr ⟨h3, one_pos⟩⟩,
    min_le_right f 1⟩

/-- Every kept slab segment satisfies `0 ≤ t0 < t1 ≤ 1`. -/
theorem slabSegment_bounds {start stop : Pt} {s : ℚ} {room : Room}
    {seg : RawSeg} (h : slabSegment start stop s room = some seg) :
    0 ≤ seg.t0 ∧ seg.t0 < seg.t1 ∧ seg.t1 ≤ 1 := by
  by_cases hdx : stop.x - start.x = 0 <;> by_cases hdy : stop.y - start.y = 0
  · rw [slabSegment_zero_zero start stop s room hdx hdy] at h
    cases h
    norm_num
  · rw [slabSegment_y_only start stop s room hdx hdy] at h
    simp only [] at h
    split_ifs at h with hc
    · cases h
      exact clamp_bounds hc.1 hc.2.1 hc.2.2
  · rw [slabSegment_x_only start stop s room hdx hdy] at h
    simp only [] at h
    split_ifs at h with hc
    · cases h
      exact clamp_bounds hc.1 hc.2.1 hc.2.2
  · rw [slabSegment_xy start stop s room hdx hdy] at h
    simp only [] at h
    split_ifs at h with hc
    · cases h
      exact clamp_bounds hc.1 hc.2.1 hc.2.2

/-- Membership through `dedupInsert`: results come from the accumulator
or are the inserted segment. -/
theorem dedupInsert_mem {acc : List RawSeg} {seg x : RawSeg}
    (h : x ∈ dedupInsert acc seg) : x ∈ acc ∨ x = seg := by
  induction acc with
  | nil =>
      simp [dedupInsert] at h
      exact Or.inr h
  | cons s rest ih =>
      unfold dedupInsert at h
      split_ifs at h with h1 h2
      · rcases List.mem_cons.mp h with h3 | h3
        · exact Or.inr h3
        · exact Or.inl (List.mem_cons_of_mem s h3)
      · rcases List.mem_cons.mp h with h3 | h3
        · exact Or.inl (h3 ▸ List.mem_cons_self s rest)
        · exact Or.inl (List.mem_cons_of_mem s h3)
      · rcases List.mem_cons.mp h with h3 | h3
        · exact Or.inl (h3 ▸ List.mem_cons_self s rest)
        · rcases ih h3 with h4 | h4
          · exact Or.inl (List.mem_cons_of_mem s h4)
          · exact Or.inr h4

/-- Membership through the deduplication fold. -/
theorem dedup_foldl_mem {rest acc : List RawSeg} {x : RawSeg}
    (h : x ∈ rest.foldl dedupInsert acc) : x ∈ acc ∨ x ∈ rest := by
  induction rest generalizing acc with
  | nil => exact Or.inl h
  | cons seg rest ih =>
      rcases @ih (dedupInsert acc seg) (show x ∈ rest.foldl dedupInsert
        (dedupInsert acc seg) from h) with h1 | h1
      · rcases dedupInsert_mem h1 with h2 | h2
        · exact Or.inl h2
        · exact Or.inr (h2 ▸ List.mem_cons_self seg rest)
      · exact Or.inr (List.mem_cons_of_mem seg h1)

/-- Provenance of returned segments: every output segment is the
stripped form of a kept slab segment of one of the rooms. -/
theorem findRayRoomIntersections_provenance {start stop : Pt}
    {rooms : List Room} {roomSize : ℚ} {sg : Seg}
    (h : sg ∈ findRayRoomIntersections start stop rooms roomSize) :
    ∃ u : RawSeg, (∃ room ∈ rooms,
        slabSegment start stop roomSize room = some u) ∧
      sg.t0 = u.t0 ∧ sg.t1 = u.t1 := by
  unfold findRayRoomIntersections at h
  simp only [List.mem_map] at h
  obtain ⟨u, hu, hstrip⟩ := h
  rcases dedup_foldl_mem hu with h1 | h1
  · cases h1
  · have h2 : u ∈ rooms.filterMap (slabSegment start stop roomSize) :=
      (List.Perm.mem_iff (List.perm_insertionSort segLE _)).mp h1
    obtain ⟨room, hroom, hsl⟩ := List.mem_filterMap.mp h2
    exact ⟨u, ⟨room, hroom, hsl⟩, by rw [← hstrip], by rw [← hstrip]⟩

/-- C10: every segment returned by the intersector has
`0 ≤ t0 < t1 ≤ 1`. -/
theorem findRayRoomIntersections_bounds (start stop : Pt)
    (rooms : List Room) (roomSize : ℚ) (sg : Seg)
    (h : sg ∈ findRayRoomIntersections start stop rooms roomSize) :
    0 ≤ sg.t0 ∧ sg.t0 < sg.t1 ∧ sg.t1 ≤ 1 := by
  obtain ⟨u, ⟨room, _, hsl⟩, h0, h1⟩ :=
    findRayRoomIntersections_provenance h
  rw [h0, h1]
  exact slabSegment_bounds hsl

/-- C10 witness: for the degenerate ray at the origin against the sample
room, the single returned segment is `[0,1]`, which satisfies the
bounds. -/
theorem findRayRoomIntersections_bounds_witness :
    0 ≤ ({ t0 := 0, t1 := 1, roomId := .original } : Seg).t0 ∧
    ({ t0 := 0, t1 := 1, roomId := .original } : Seg).t0 <
      ({ t0 := 0, t1 := 1, roomId := .original } : Seg).t1 ∧
    ({ t0 := 0, t1 := 1, roomId := .original } : Seg).t1 ≤ 1 :=
  findRayRoomIntersections_bounds { x := 0, y := 0 } { x := 0, y := 0 }
    [sampleRoot] 1 { t0 := 0, t1 := 1, roomId := .original } (by
      have h := slabSegment_zero_zero { x := 0, y := 0 } { x := 0, y := 0 } 1
        sampleRoot (by norm_num) (by norm_num)
      unfold findRayRoomIntersections
      simp only [List.filterMap_cons, List.filterMap_nil, h]
      simp [List.insertionSort, List.orderedInsert, dedupInsert, sampleRoot])

/-- Strictly between the two slab parameters means strictly between the
two boundary lines. -/
theorem between_product {dx sx L t : ℚ} (hdx : dx ≠ 0)
    (h1 : min ((L - sx) / dx) ((L + s' - sx) / dx) < t)
    (h2 : t < max ((L - sx) / dx) ((L + s' - sx) / dx)) :
    (sx + t * dx - L) * (sx + t * dx - (L + s')) < 0 := by
  have e1 : sx + t * dx - L = (t - (L - sx) / dx) * dx := by
    field_simp
    ring
  have e2 : sx + t * dx - (L + s') = (t - (L + s' - sx) / dx) * dx := by
    field_simp
    ring
  rw [e1, e2]
  have key : (t - (L - sx) / dx) * (t - (L + s' - sx) / dx) < 0 := by
    rcases le_total ((L - sx) / dx) ((L + s' - sx) / dx) with hc | hc
    · rw [min_eq_left hc] at h1
      rw [max_eq_right hc] at h2
      exact mul_neg_of_pos_of_neg (by linarith) (by linarith)
    · rw [min_eq_right hc] at h1
      rw [max_eq_left hc] at h2
      exact mul_neg_of_neg_of_pos (by linarith) (by linarith)
  calc (t - (L - sx) / dx) * dx * ((t - (L + s' - sx) / dx) * dx)
      = (t - (L - sx) / dx) * (t - (L + s' - sx) / dx) * dx ^ 2 := by ring
    _ < 0 := by
        have hsq : (0 : ℚ) < dx ^ 2 := by positivity
        exact mul_neg_of_neg_of_pos key hsq

/-- For a ray with nonzero x component, the interior of a kept slab
interval maps strictly between the room's left and right lines. -/
theorem slabSegment_open_x {start stop : Pt} {s : ℚ} {room : Room}
    {seg : RawSeg} (hdx : stop.x - start.x ≠ 0)
    (h : slabSegment start stop s room = some seg)
    {t : ℚ} (ht0 : seg.t0 < t) (ht1 : t < seg.t1) :
    (start.x + t * (stop.x - start.x) - (room.position.x : ℚ) * s) *
      (start.x + t * (stop.x - start.x) - ((room.position.x : ℚ) * s + s)) <
      0 := by
  by_cases hdy : stop.y - start.y = 0
  · rw [slabSegment_x_only start stop s room hdx hdy] at h
    simp only [] at h
    split_ifs at h with hc
    cases h
    refine between_product hdx ?_ ?_
    · exact lt_of_le_of_lt (le_max_left _ _) ht0
    · exact lt_of_lt_of_le ht1 (min_le_left _ _)
  · rw [slabSegment_xy start stop s room hdx hdy] at h
    simp only [] at h
    split_ifs at h with hc
    cases h
    refine between_product hdx ?_ ?_
    · exact lt_of_le_of_lt (le_trans (le_max_left _ _) (le_max_left _ _)) ht0
    · exact lt_of_lt_of_le ht1 (le_trans (min_le_left _ _) (min_le_left _ _))

/-- For a ray with nonzero y component, the interior of a kept slab
interval maps strictly between the room's top and bottom lines. -/
theorem slabSegment_open_y {start stop : Pt} {s : ℚ} {room : Room}
    {seg : RawSeg} (hdy : stop.y - start.y ≠ 0)
    (h : slabSegment start stop s room = some seg)
    {t : ℚ} (ht0 : seg.t0 < t) (ht1 : t < seg.t1) :
    (start.y + t * (stop.y - start.y) - (room.position.y : ℚ) * s) *
      (start.y + t * (stop.y - start.y) - ((room.position.y : ℚ) * s + s)) <
      0 := by
  by_cases hdx : stop.x - start.x = 0
  · rw [slabSegment_y_only start stop s room hdx hdy] at h
    simp only [] at h
    split_ifs at h with hc
    cases h
    refine between_product hdy ?_ ?_
    · exact lt_of_le_of_lt (le_max_left _ _) ht0
    · exact lt_of_lt_of_le ht1 (min_le_left _ _)
  · rw [slabSegment_xy start stop s room hdx hdy] at h
    simp only [] at h
    split_ifs at h with hc
    cases h
    refine between_product hdy ?_ ?_
    · exact lt_of_le_of_lt (le_trans (le_max_right _ _) (le_max_left _ _)) ht0
    · exact lt_of_lt_of_le ht1 (le_trans (min_le_left _ _) (min_le_right _ _))

/-- A value cannot lie strictly inside two distinct cells of the
one-dimensional grid `k·s .. (k+1)·s`. -/
theorem cells_disjoint {s x : ℚ} {k k' : ℤ} (hkk : k ≠ k')
    (h1 : (x - (k : ℚ) * s) * (x - ((k : ℚ) * s + s)) < 0)
    (h2 : (x - (k' : ℚ) * s) * (x - ((k' : ℚ) * s + s)) < 0) : False := by
  have hs : s ≠ 0 := by
    rintro rfl
    nlinarith [sq_nonneg (x - (k : ℚ) * 0)]
  rcases lt_or_gt_of_ne hkk with hlt | hlt
  · have hcast : (k : ℚ) + 1 ≤ (k' : ℚ) := by exact_mod_cast hlt
    rcases mul_neg_iff.mp h1 with ⟨ha1, hb1⟩ | ⟨ha1, hb1⟩ <;>
      rcases mul_neg_iff.mp h2 with ⟨ha2, hb2⟩ | ⟨ha2, hb2⟩ <;>
      nlinarith [mul_le_mul_of_nonneg_right hcast (le_of_lt (show (0:ℚ) < s by nlinarith)),
        mul_le_mul_of_nonpos_right hcast (le_of_lt (show s < (0:ℚ) by nlinarith))]
  · have hcast : (k' : ℚ) + 1 ≤ (k : ℚ) := by exact_mod_cast hlt
    rcases mul_neg_iff.mp h1 with ⟨ha1, hb1⟩ | ⟨ha1, hb1⟩ <;>
      rcases mul_neg_iff.mp h2 with ⟨ha2, hb2⟩ | ⟨ha2, hb2⟩ <;>
      nlinarith [mul_le_mul_of_nonneg_right hcast (le_of_lt (show (0:ℚ) < s by nlinarith)),
        mul_le_mul_of_nonpos_right hcast (le_of_lt (show s < (0:ℚ) by nlinarith))]

/-- The family property of kept slab intervals: any two are identical as
intervals or quasi-disjoint (their interiors do not meet). -/
theorem slabSegment_fam {start stop : Pt} {s : ℚ} {r1 r2 : Room}
    {s1 s2 : RawSeg} (h1 : slabSegment start stop s r1 = some s1)
    (h2 : slabSegment start stop s r2 = some s2) :
    (s1.t0 = s2.t0 ∧ s1.t1 = s2.t1) ∨
      min s1.t1 s2.t1 ≤ max s1.t0 s2.t0 := by
  have hover : ∀ hq : ¬ min s1.t1 s2.t1 ≤ max s1.t0 s2.t0,
      s1.t0 < (max s1.t0 s2.t0 + min s1.t1 s2.t1) / 2 ∧
      (max s1.t0 s2.t0 + min s1.t1 s2.t1) / 2 < s1.t1 ∧
      s2.t0 < (max s1.t0 s2.t0 + min s1.t1 s2.t1) / 2 ∧
      (max s1.t0 s2.t0 + min s1.t1 s2.t1) / 2 < s2.t1 := by
    intro hq
    push_neg at hq
    have ha1 : s1.t0 ≤ max s1.t0 s2.t0 := le_max_left _ _
    have ha2 : s2.t0 ≤ max s1.t0 s2.t0 := le_max_right _ _
    have hb1 : min s1.t1 s2.t1 ≤ s1.t1 := min_le_left _ _
    have hb2 : min s1.t1 s2.t1 ≤ s2.t1 := min_le_right _ _
    refine ⟨by linarith, by linarith, by linarith, by linarith⟩
  by_cases hdx : stop.x - start.x = 0 <;> by_cases hdy : stop.y - start.y = 0
  · left
    rw [slabSegment_zero_zero start stop s r1 hdx hdy] at h1
    rw [slabSegment_zero_zero start stop s r2 hdx hdy] at h2
    cases h1
    cases h2
    exact ⟨rfl, rfl⟩
  · by_cases hy : r1.position.y = r2.position.y
    · left
      rw [slabSegment_y_only start stop s r1 hdx hdy] at h1
      rw [slabSegment_y_only start stop s r2 hdx hdy] at h2
      rw [hy] at h1
      simp only [] at h1 h2
      split_ifs at h1 h2 with hc
      cases h1
      cases h2
      exact ⟨rfl, rfl⟩
    · by_contra hcon
      push_neg at hcon
      obtain ⟨hq1, hq2, hq3, hq4⟩ := hover (not_le.mpr hcon.2)
      exact cells_disjoint (fun he => hy (by exact he))
        (slabSegment_open_y hdy h1 hq1 hq2)
        (slabSegment_open_y hdy h2 hq3 hq4)
  · by_cases hx : r1.position.x = r2.position.x
    · left
      rw [slabSegment_x_only start stop s r1 hdx hdy] at h1
      rw [slabSegment_x_only start stop s r2 hdx hdy] at h2
      rw [hx] at h1
      simp only [] at h1 h2
      split_ifs at h1 h2 with hc
      cases h1
      cases h2
      exact ⟨rfl, rfl⟩
    · by_contra hcon
      push_neg at hcon
      obtain ⟨hq1, hq2, hq3, hq4⟩ := hover (not_le.mpr hcon.2)
      exact cells_disjoint (fun he => hx (by exact he))
        (slabSegment_open_x hdx h1 hq1 hq2)
        (slabSegment_open_x hdx h2 hq3 hq4)
  · by_cases hx : r1.position.x = r2.position.x
    · by_cases hy : r1.position.y = r2.position.y
      · left
        rw [slabSegment_xy start stop s r1 hdx hdy] at h1
        rw [slabSegment_xy start stop s r2 hdx hdy] at h2
        rw [hx, hy] at h1
        simp only [] at h1 h2
        split_ifs at h1 h2 with hc
        cases h1
        cases h2
        exact ⟨rfl, rfl⟩
      · by_contra hcon
        push_neg at hcon
        obtain ⟨hq1, hq2, hq3, hq4⟩ := hover (not_le.mpr hcon.2)
        exact cells_disjoint (fun he => hy (by exact he))
          (slabSegment_open_y hdy h1 hq1 hq2)
          (slabSegment_open_y hdy h2 hq3 hq4)
    · by_contra hcon
      push_neg at hcon
      obtain ⟨hq1, hq2, hq3, hq4⟩ := hover (not_le.mpr hcon.2)
      exact cells_disjoint (fun he => hx (by exact he))
        (slabSegment_open_x hdx h1 hq1 hq2)
        (slabSegment_open_x hdx h2 hq3 hq4)

/-- Tolerance matching is symmetric. -/
theorem matchesSeg_symm (a b : RawSeg) : matchesSeg a b = matchesSeg b a := by
  unfold matchesSeg
  rw [abs_sub_comm a.t0 b.t0, abs_sub_comm a.t1 b.t1]

/-- Unfolding of the tolerance match. -/
theorem matchesSeg_true {a b : RawSeg} :
    matchesSeg a b = true ↔
      |a.t0 - b.t0| < rayEps ∧ |a.t1 - b.t1| < rayEps := by
  unfold matchesSeg
  simp

/-- One insertion step of the deduplication loop preserves the
accumulator invariants: strictly ordered disjoint entries that pairwise
fail the tolerance match. The inserted segment must belong to the family
`S`, arrive after every accumulator entry, and the whole accumulator must
come from `S`. -/
theorem dedupInsert_invariant {S : List RawSeg}
    (hfam : ∀ a ∈ S, ∀ b ∈ S, (a.t0 = b.t0 ∧ a.t1 = b.t1) ∨
      min a.t1 b.t1 ≤ max a.t0 b.t0)
    (hne : ∀ a ∈ S, a.t0 < a.t1)
    {seg : RawSeg} (hsegS : seg ∈ S) :
    ∀ acc : List RawSeg, (∀ a ∈ acc, a ∈ S) →
    (∀ a ∈ acc, a.t0 ≤ seg.t0) →
    acc.Pairwise (fun a b => a.t1 ≤ b.t0) →
    acc.Pairwise (fun a b => matchesSeg a b = false) →
    (dedupInsert acc seg).Pairwise (fun a b => a.t1 ≤ b.t0) ∧
      (dedupInsert acc seg).Pairwise (fun a b => matchesSeg a b = false) := by
  intro acc
  induction acc with
  | nil =>
      intro _ _ _ _
      simp [dedupInsert]
  | cons s rest ih =>
      intro hS hle hstrong hmatch
      have hsS : s ∈ S := hS s (List.mem_cons_self s rest)
      have hrestS : ∀ a ∈ rest, a ∈ S :=
        fun a ha => hS a (List.mem_cons_of_mem s ha)
      have hsle : s.t0 ≤ seg.t0 := hle s (List.mem_cons_self s rest)
      have hrestle : ∀ a ∈ rest, a.t0 ≤ seg.t0 :=
        fun a ha => hle a (List.mem_cons_of_mem s ha)
      obtain ⟨hstrong1, hstrong2⟩ := List.pairwise_cons.mp hstrong
      obtain ⟨hmatch1, hmatch2⟩ := List.pairwise_cons.mp hmatch
      have hsne : s.t0 < s.t1 := hne s hsS
      have hsegne : seg.t0 < seg.t1 := hne seg hsegS
      unfold dedupInsert
      split_ifs with hm hro
      · -- the head matches: replace (or keep) the head; the invariants
        -- force the tail to be empty, so every tail obligation is vacuous
        have hfalse : ∀ b ∈ rest, False := by
          intro b hb
          have hmm := matchesSeg_true.mp hm
          have hd0 := abs_lt.mp hmm.1
          have hd1 := abs_lt.mp hmm.2
          have hnm : matchesSeg s b = false := hmatch1 b hb
          have hsb : s.t1 ≤ b.t0 := hstrong1 b hb
          have hbS : b ∈ S := hrestS b hb
          have hbne : b.t0 < b.t1 := hne b hbS
          have hble : b.t0 ≤ seg.t0 := hrestle b hb
          have hcontra : matchesSeg s b = true := by
            rcases hfam seg hsegS b hbS with ⟨he0, he1⟩ | hqu
            · exact matchesSeg_true.mpr
                ⟨by rw [← he0]; exact hmm.1, by rw [← he1]; exact hmm.2⟩
            · rw [max_eq_left hble] at hqu
              have hbt1 : b.t1 ≤ seg.t0 := by
                rcases le_or_lt seg.t1 b.t1 with hc | hc
                · rw [min_eq_left hc] at hqu; linarith
                · rw [min_eq_right hc.le] at hqu; exact hqu
              refine matchesSeg_true.mpr ⟨?_, ?_⟩
              · rw [abs_lt]; constructor <;> linarith
              · rw [abs_lt]; constructor <;> linarith
          rw [hnm] at hcontra
          exact Bool.false_ne_true hcontra
        refine ⟨List.pairwise_cons.mpr ⟨fun b hb => (hfalse b hb).elim,
            hstrong2⟩,
          List.pairwise_cons.mpr ⟨fun b hb => (hfalse b hb).elim, hmatch2⟩⟩
      · exact ⟨List.pairwise_cons.mpr ⟨hstrong1, hstrong2⟩,
          List.pairwise_cons.mpr ⟨hmatch1, hmatch2⟩⟩
      · -- the head does not match: recurse into the tail
        have hmf : matchesSeg s seg = false := Bool.not_eq_true _ ▸ hm
        have hssegq : s.t1 ≤ seg.t0 := by
          rcases hfam s hsS seg hsegS with ⟨he0, he1⟩ | hqu
          · exfalso
            have : matchesSeg s seg = true := matchesSeg_true.mpr
              ⟨by rw [he0, sub_self, abs_zero]; norm_num [rayEps],
                by rw [he1, sub_self, abs_zero]; norm_num [rayEps]⟩
            exact hm this
          · rw [max_eq_right hsle] at hqu
            rcases le_or_lt s.t1 seg.t1 with hc | hc
            · rw [min_eq_left hc] at hqu; exact hqu
            · rw [min_eq_right hc.le] at hqu; linarith
        obtain ⟨ihs, ihm⟩ := ih hrestS hrestle hstrong2 hmatch2
        constructor
        · refine List.pairwise_cons.mpr ⟨?_, ihs⟩
          intro b hb
          rcases dedupInsert_mem hb with hb2 | hb2
          · exact hstrong1 b hb2
          · rw [hb2]; exact hssegq
        · refine List.pairwise_cons.mpr ⟨?_, ihm⟩
          intro b hb
          rcases dedupInsert_mem hb with hb2 | hb2
          · exact hmatch1 b hb2
          · rw [hb2]; exact hmf

/-- The deduplication fold preserves the accumulator invariants along a
sorted candidate list drawn from the family `S`. -/
theorem dedup_foldl_invariant {S : List RawSeg}
    (hfam : ∀ a ∈ S, ∀ b ∈ S, (a.t0 = b.t0 ∧ a.t1 = b.t1) ∨
      min a.t1 b.t1 ≤ max a.t0 b.t0)
    (hne : ∀ a ∈ S, a.t0 < a.t1) :
    ∀ rest acc : List RawSeg, (∀ a ∈ rest, a ∈ S) → (∀ a ∈ acc, a ∈ S) →
    (∀ a ∈ acc, ∀ b ∈ rest, a.t0 ≤ b.t0) →
    rest.Pairwise (fun a b => a.t0 ≤ b.t0) →
    acc.Pairwise (fun a b => a.t1 ≤ b.t0) →
    acc.Pairwise (fun a b => matchesSeg a b = false) →
    (rest.foldl dedupInsert acc).Pairwise (fun a b => a.t1 ≤ b.t0) ∧
      (rest.foldl dedupInsert acc).Pairwise
        (fun a b => matchesSeg a b = false) := by
  intro rest
  induction rest with
  | nil =>
      intro acc _ _ _ _ h1 h2
      exact ⟨h1, h2⟩
  | cons seg rest ih =>
      intro acc hrestS haccS hsep hsorted hstrong hmatch
      have hsegS : seg ∈ S := hrestS seg (List.mem_cons_self seg rest)
      have hsegle : ∀ a ∈ acc, a.t0 ≤ seg.t0 :=
        fun a ha => hsep a ha seg (List.mem_cons_self seg rest)
      obtain ⟨hsort1, hsort2⟩ := List.pairwise_cons.mp hsorted
      obtain ⟨hinv1, hinv2⟩ := dedupInsert_invariant hfam hne hsegS acc
        haccS hsegle hstrong hmatch
      simp only [List.foldl_cons]
      refine ih (dedupInsert acc seg)
        (fun a ha => hrestS a (List.mem_cons_of_mem seg ha)) ?_ ?_
        hsort2 hinv1 hinv2
      · intro a ha
        rcases dedupInsert_mem ha with h | h
        · exact haccS a h
        · rw [h]; exact hsegS
      · intro a ha b hb
        rcases dedupInsert_mem ha with h | h
        · exact le_trans (hsegle a h) (hsort1 b hb)
        · rw [h]; exact hsort1 b hb

/-- C3: for every start point, end point, room list and room size, the
segment list returned by `findRayRoomIntersections` is sorted ascending
by `t0`, and its intervals are pairwise non-overlapping beyond the
absolute tolerance `EPSILON = 1e-4` (in fact they never overlap at
all). -/
theorem findRayRoomIntersections_sorted_disjoint (start stop : Pt)
    (rooms : List Room) (roomSize : ℚ) :
    (findRayRoomIntersections start stop rooms roomSize).Pairwise
      (fun a b => a.t0 ≤ b.t0) ∧
    (findRayRoomIntersections start stop rooms roomSize).Pairwise
      (fun a b => min a.t1 b.t1 - max a.t0 b.t0 ≤ rayEps) := by
  have heq : findRayRoomIntersections start stop rooms roomSize =
      ((List.insertionSort segLE
        (rooms.filterMap (slabSegment start stop roomSize))).foldl
        dedupInsert []).map
        (fun s => { t0 := s.t0, t1 := s.t1, roomId := s.roomId }) := rfl
  have hfam : ∀ a ∈ rooms.filterMap (slabSegment start stop roomSize),
      ∀ b ∈ rooms.filterMap (slabSegment start stop roomSize),
      (a.t0 = b.t0 ∧ a.t1 = b.t1) ∨ min a.t1 b.t1 ≤ max a.t0 b.t0 := by
    intro a ha b hb
    obtain ⟨r1, _, h1⟩ := List.mem_filterMap.mp ha
    obtain ⟨r2, _, h2⟩ := List.mem_filterMap.mp hb
    exact slabSegment_fam h1 h2
  have hne : ∀ a ∈ rooms.filterMap (slabSegment start stop roomSize),
      a.t0 < a.t1 := by
    intro a ha
    obtain ⟨r1, _, h1⟩ := List.mem_filterMap.mp ha
    exact (slabSegment_bounds h1).2.1
  have hsortmem : ∀ a ∈ List.insertionSort segLE
      (rooms.filterMap (slabSegment start stop roomSize)),
      a ∈ rooms.filterMap (slabSegment start stop roomSize) :=
    fun a ha => (List.Perm.mem_iff (List.perm_insertionSort segLE _)).mp ha
  have hsorted : (List.insertionSort segLE
      (rooms.filterMap (slabSegment start stop roomSize))).Pairwise
      (fun a b => a.t0 ≤ b.t0) := by
    refine (List.sorted_insertionSort segLE _).imp ?_
    intro a b hab
    rcases hab with h | ⟨h, _⟩
    · exact le_of_lt h
    · exact le_of_eq h
  obtain ⟨hstrong, _⟩ := dedup_foldl_invariant hfam hne
    (List.insertionSort segLE
      (rooms.filterMap (slabSegment start stop roomSize))) []
    hsortmem (by intro a ha; cases ha) (by intro a ha; cases ha)
    hsorted List.Pairwise.nil List.Pairwise.nil
  rw [heq]
  constructor
  · rw [List.pairwise_map]
    refine List.Pairwise.imp_of_mem ?_ hstrong
    intro a b ha _ hab
    have haraw : a ∈ rooms.filterMap (slabSegment start stop roomSize) := by
      rcases dedup_foldl_mem ha with h | h
      · cases h
      · exact hsortmem a h
    exact le_of_lt (lt_of_lt_of_le (hne a haraw) hab)
  · rw [List.pairwise_map]
    refine hstrong.imp ?_
    intro a b hab
    have h1 : min a.t1 b.t1 ≤ a.t1 := min_le_left _ _
    have h2 : b.t0 ≤ max a.t0 b.t0 := le_max_right _ _
    have heps : (0 : ℚ) ≤ rayEps := by norm_num [rayEps]
    simp only []
    linarith

/-! ### Association-list algebra -/

/-- Unfolding of a lookup at a cons cell. -/
theorem alook_cons {α β : Type} [DecidableEq α] (a : α) (b : β)
    (tl : List (α × β)) (j : α) :
    alook ((a, b) :: tl) j = if a = j then some b else alook tl j := rfl

/-- Unfolding of a modification at a cons cell. -/
theorem amodify_cons {α β : Type} [DecidableEq α] (a : α) (b : β)
    (tl : List (α × β)) (k : α) (f : β → β) :
    amodify ((a, b) :: tl) k f =
      (if a = k then (a, f b) else (a, b)) :: amodify tl k f := by
  by_cases h : a = k <;> simp [amodify, h]

/-- Unfolding of an erasure at a cons cell. -/
theorem aerase_cons {α β : Type} [DecidableEq α] (a : α) (b : β)
    (tl : List (α × β)) (k : α) :
    aerase ((a, b) :: tl) k =
      if a = k then aerase tl k else (a, b) :: aerase tl k := by
  by_cases h : a = k <;> simp [aerase, List.filter_cons, h]

/-- Lookup after an in-place modification. -/
theorem alook_amodify {α β : Type} [DecidableEq α] (l : List (α × β))
    (k : α) (f : β → β) (j : α) :
    alook (amodify l k f) j =
      if j = k then (alook l k).map f else alook l j := by
  induction l with
  | nil => simp [amodify, alook]
  | cons hd tl ih =>
      obtain ⟨a, b⟩ := hd
      rw [amodify_cons]
      by_cases hak : a = k
      · subst hak
        by_cases haj : a = j
        · subst haj
          simp [alook_cons]
        · have hja : ¬ j = a := fun h => haj h.symm
          simp [alook_cons, haj, hja, ih]
      · by_cases haj : a = j
        · subst haj
          have hjk : ¬ a = k := hak
          simp [alook_cons, hak, hjk]
        · have hja : ¬ j = a := fun h => haj h.symm
          simp [alook_cons, hak, haj, hja, ih]

/-- Lookup after an erasure. -/
theorem alook_aerase {α β : Type} [DecidableEq α] (l : List (α × β))
    (k : α) (j : α) :
    alook (aerase l k) j = if j = k then none else alook l j := by
  induction l with
  | nil => simp [aerase, alook]
  | cons hd tl ih =>
      obtain ⟨a, b⟩ := hd
      rw [aerase_cons]
      by_cases hak : a = k
      · subst hak
        by_cases haj : a = j
        · subst haj
          simp [alook_cons, ih]
        · have hja : ¬ j = a := fun h => haj h.symm
          simp [alook_cons, haj, hja, ih]
      · by_cases haj : a = j
        · subst haj
          have hjk : ¬ a = k := hak
          simp [alook_cons, hak, hjk]
        · have hja : ¬ j = a := fun h => haj h.symm
          simp [alook_cons, hak, haj, hja, ih]

/-- Lookup in a one-element extension. -/
theorem alook_append_sing {α β : Type} [DecidableEq α] (l : List (α × β))
    (k : α) (v : β) (j : α) :
    alook (l ++ [(k, v)]) j =
      if j = k then (alook l k).orElse (fun _ => some v)
      else alook l j := by
  induction l with
  | nil =>
      by_cases hjk : j = k
      · subst hjk
        simp [alook, alook_cons]
      · have hkj : ¬ k = j := fun h => hjk h.symm
        simp [alook, alook_cons, hjk, hkj]
  | cons hd tl ih =>
      obtain ⟨a, b⟩ := hd
      rw [List.cons_append]
      by_cases haj : a = j
      · subst haj
        by_cases hak : a = k
        · subst hak
          simp [alook_cons]
        · have hka : ¬ a = k := hak
          simp [alook_cons, hka]
      · have hja : ¬ j = a := fun h => haj h.symm
        by_cases hjk : j = k
        · subst hjk
          have hak : ¬ a = j := haj
          simp [alook_cons, hak, ih]
        · simp [alook_cons, haj, hjk, ih]

/-- The in-place branch of `aset` is a modification with a constant
function. -/
theorem aset_map_eq_amodify {α β : Type} [DecidableEq α]
    (l : List (α × β)) (k : α) (v : β) :
    l.map (fun p => if p.1 = k then (p.1, v) else p) =
      amodify l k (fun _ => v) := rfl

/-- Setting a key then reading it back. -/
theorem alook_aset_self {α β : Type} [DecidableEq α] (l : List (α × β))
    (k : α) (v : β) : alook (aset l k v) k = some v := by
  unfold aset
  by_cases hs : (alook l k).isSome
  · obtain ⟨w, hw⟩ := Option.isSome_iff_exists.mp hs
    rw [if_pos hs, aset_map_eq_amodify, alook_amodify, if_pos rfl, hw]
    rfl
  · have hnone : alook l k = none := by
      rcases h : alook l k with _ | w
      · rfl
      · rw [h] at hs; simp at hs
    rw [if_neg hs, alook_append_sing, if_pos rfl, hnone]
    rfl

/-- Setting a key leaves other keys unchanged. -/
theorem alook_aset_ne {α β : Type} [DecidableEq α] (l : List (α × β))
    (k : α) (v : β) (j : α) (hj : j ≠ k) :
    alook (aset l k v) j = alook l j := by
  unfold aset
  by_cases hs : (alook l k).isSome
  · rw [if_pos hs, aset_map_eq_amodify, alook_amodify, if_neg hj]
  · rw [if_neg hs, alook_append_sing, if_neg hj]

/-- The first arena binding is found by lookup. -/
theorem alook_head {α β : Type} [DecidableEq α] {l : List (α × β)}
    {a : α} {b : β} (h : l.head? = some (a, b)) : alook l a = some b := by
  cases l with
  | nil => cases h
  | cons hd tl =>
      simp only [List.head?_cons, Option.some.injEq] at h
      subst h
      rw [alook_cons, if_pos rfl]

/-- Modification keeps the head binding's key. -/
theorem head_amodify {α β : Type} [DecidableEq α] {l : List (α × β)}
    {a : α} {b : β} (h : l.head? = some (a, b)) (k : α) (f : β → β) :
    ∃ b2, (amodify l k f).head? = some (a, b2) := by
  cases l with
  | nil => cases h
  | cons hd tl =>
      simp only [List.head?_cons, Option.some.injEq] at h
      subst h
      by_cases hak : a = k
      · exact ⟨f b, by simp [amodify, hak]⟩
      · exact ⟨b, by simp [amodify, hak]⟩

/-- Erasing a different key keeps the head binding. -/
theorem head_aerase {α β : Type} [DecidableEq α] {l : List (α × β)}
    {a : α} {b : β} (h : l.head? = some (a, b)) {k : α} (hk : a ≠ k) :
    (aerase l k).head? = some (a, b) := by
  cases l with
  | nil => cases h
  | cons hd tl =>
      simp only [List.head?_cons, Option.some.injEq] at h
      subst h
      simp [aerase, List.filter_cons, hk]

/-- Appending keeps the head binding. -/
theorem head_append {α β : Type} [DecidableEq α] {l : List (α × β)}
    {a : α} {b : β} (h : l.head? = some (a, b)) (l2 : List (α × β)) :
    (l ++ l2).head? = some (a, b) := by
  cases l with
  | nil => cases h
  | cons hd tl => simpa using h

/-! ### Id-determined room values -/

/-- The virtual room position across a wall is one grid step. -/
theorem getVirtualRoomPosition_eq (r : Room) (w : Wall) :
    getVirtualRoomPosition r w = stepPos r.position w := by
  cases w <;> rfl

/-- A step never stays in place. -/
theorem stepPos_ne (p : IPos) (w : Wall) : stepPos p w ≠ p := by
  obtain ⟨x, y⟩ := p
  cases w <;> simp [stepPos, IPos.mk.injEq] <;> omega

/-- Only the original id has depth zero. -/
theorem idDepth_eq_zero {i : RoomId} : idDepth i = 0 ↔ i = .original := by
  cases i <;> simp [idDepth]

/-- A child id differs from its parent id. -/
theorem child_ne_parent (p : RoomId) (w : Wall) (k : ℕ) :
    RoomId.child p w k ≠ p := by
  intro h
  have := congrArg idDepth h
  simp only [idDepth] at this
  omega

/-- The determined room of the root id is the root. -/
theorem roomOfId_self (root : Room) : roomOfId root root.id = root := by
  rcases hr : root.id with _ | ⟨p, w, k⟩
  · rfl
  · simp [roomOfId, ← hr]

/-- The determined position of the root id is the root cell. -/
theorem posOfId_self (root : Room) : posOfId root root.id = root.position := by
  rcases hr : root.id with _ | ⟨p, w, k⟩
  · rfl
  · simp [posOfId, ← hr]

/-- The determined room sits at the determined position. -/
theorem roomOfId_position (root : Room) (i : RoomId) :
    (roomOfId root i).position = posOfId root i := by
  rcases i with _ | ⟨p, w, k⟩
  · rfl
  · by_cases h : RoomId.child p w k = root.id
    · simp only [roomOfId, posOfId, if_pos h]
    · simp only [roomOfId, posOfId, if_neg h]

/-- The determined room keeps the root's width. -/
theorem roomOfId_width (root : Room) (i : RoomId) :
    (roomOfId root i).width = root.width := by
  rcases i with _ | ⟨p, w, k⟩
  · rfl
  · by_cases h : RoomId.child p w k = root.id <;> simp [roomOfId, h]

/-- The determined room keeps the root's height. -/
theorem roomOfId_height (root : Room) (i : RoomId) :
    (roomOfId root i).height = root.height := by
  rcases i with _ | ⟨p, w, k⟩
  · rfl
  · by_cases h : RoomId.child p w k = root.id <;> simp [roomOfId, h]

/-- The determined room of an id at least as deep as the root's carries
that id. -/
theorem roomOfId_id (root : Room) (i : RoomId)
    (hd : idDepth root.id ≤ idDepth i) : (roomOfId root i).id = i := by
  rcases i with _ | ⟨p, w, k⟩
  · simp only [idDepth, Nat.le_zero] at hd
    have : root.id = RoomId.original := idDepth_eq_zero.mp hd
    rw [roomOfId, this]
  · by_cases h : RoomId.child p w k = root.id
    · simp [roomOfId, h]
    · simp only [roomOfId, if_neg h]

/-- No mirror pair is swapped at the root cell. -/
theorem configFor_self (root : Room) :
    configFor root root.position = root.walls := by
  have hx : flipX root root.position = false := by simp [flipX]
  have hy : flipY root root.position = false := by simp [flipY]
  simp [configFor, hx, hy]

/-- The parity flips of a vertical step. -/
theorem flipY_up (root : Room) (p : IPos) :
    flipY root { x := p.x, y := p.y - 1 } = !flipY root p := by
  simp only [flipY, ← decide_not]
  rw [decide_eq_decide]
  omega

/-- The parity flips of a downward step. -/
theorem flipY_down (root : Room) (p : IPos) :
    flipY root { x := p.x, y := p.y + 1 } = !flipY root p := by
  simp only [flipY, ← decide_not]
  rw [decide_eq_decide]
  omega

/-- The parity flips of a rightward step. -/
theorem flipX_right (root : Room) (p : IPos) :
    flipX root { x := p.x + 1, y := p.y } = !flipX root p := by
  simp only [flipX, ← decide_not]
  rw [decide_eq_decide]
  omega

/-- The parity flips of a leftward step. -/
theorem flipX_left (root : Room) (p : IPos) :
    flipX root { x := p.x - 1, y := p.y } = !flipX root p := by
  simp only [flipX, ← decide_not]
  rw [decide_eq_decide]
  omega

/-- The horizontal parity only reads the x coordinate. -/
theorem flipX_y (root : Room) (p : IPos) (d : ℤ) :
    flipX root { x := p.x, y := d } = flipX root p := rfl

/-- The vertical parity only reads the y coordinate. -/
theorem flipY_x (root : Room) (p : IPos) (d : ℤ) :
    flipY root { x := d, y := p.y } = flipY root p := rfl

/-- Reflecting the parity configuration across a wall gives the parity
configuration of the stepped cell. -/
theorem configFor_step (root : Room) (p : IPos) (w : Wall) :
    getVirtualRoomWalls (configFor root p) w =
      configFor root (stepPos p w) := by
  cases w with
  | top =>
      simp only [getVirtualRoomWalls, stepPos, configFor, flipY_up, flipX_y]
      cases hb : flipY root p <;> simp
  | bottom =>
      simp only [getVirtualRoomWalls, stepPos, configFor, flipY_down, flipX_y]
      cases hb : flipY root p <;> simp
  | right =>
      simp only [getVirtualRoomWalls, stepPos, configFor, flipX_right, flipY_x]
      cases hx : flipX root p <;> simp
  | left =>
      simp only [getVirtualRoomWalls, stepPos, configFor, flipX_left, flipY_x]
      cases hx : flipX root p <;> simp

/-- The determined room carries the parity wall configuration of its
determined position. -/
theorem roomOfId_walls (root : Room) (i : RoomId) :
    (roomOfId root i).walls = configFor root (posOfId root i) := by
  rcases i with _ | ⟨p, w, k⟩
  · exact (configFor_self root).symm
  · by_cases h : RoomId.child p w k = root.id
    · simp only [roomOfId, posOfId, if_pos h]
      exact (configFor_self root).symm
    · simp only [roomOfId, posOfId, if_neg h]

/-- Every composition of reflections produces the parity wall
configuration of the cell it reaches. -/
theorem reach_configFor {root : Room} {n : ℕ} {p : IPos} {cfg : WallCfg}
    (h : ReachCfg root n p cfg) : cfg = configFor root p := by
  induction h with
  | zero => exact (configFor_self root).symm
  | step w hr hw ih => rw [ih, configFor_step]

/-- Characterization of the lowest recorded order at a position. -/
theorem lowestOrderAt_le_iff (st : BuildSt) (ids : List RoomId) (m : ℕ) :
    lowestOrderAt st ids ≤ (m : WithTop ℕ) ↔
      ∃ i ∈ ids, ∃ nd, alook st.nodes i = some nd ∧
        nd.room.reflectionOrder ≤ m := by
  induction ids with
  | nil =>
      simp only [lowestOrderAt, List.map_nil, List.foldr_nil]
      constructor
      · intro h
        exact absurd (top_le_iff.mp h) WithTop.coe_ne_top
      · rintro ⟨i, hi, -⟩
        cases hi
  | cons i ids ih =>
      simp only [lowestOrderAt, List.map_cons, List.foldr_cons] at ih ⊢
      rw [min_le_iff]
      constructor
      · rintro (h | h)
        · rcases ha : alook st.nodes i with _ | nd
          · rw [ha] at h
            exact absurd (top_le_iff.mp h) WithTop.coe_ne_top
          · rw [ha] at h
            exact ⟨i, List.mem_cons_self i ids, nd, ha,
              WithTop.coe_le_coe.mp h⟩
        · obtain ⟨j, hj, nd, hnd, hord⟩ := ih.mp h
          exact ⟨j, List.mem_cons_of_mem i hj, nd, hnd, hord⟩
      · rintro ⟨j, hj, nd, hnd, hord⟩
        rcases List.mem_cons.mp hj with rfl | hj2
        · left
          rw [hnd]
          exact WithTop.coe_le_coe.mpr hord
        · exact Or.inr (ih.mpr ⟨j, hj2, nd, hnd, hord⟩)

/-- Under the invariant the recorded original room is the root. -/
theorem findOriginal_inv {root : Room} {mo : ℕ} {st : BuildSt}
    (hinv : BInv root mo st) : findOriginal st = some root := by
  obtain ⟨nd, hhead⟩ := hinv.rootFirst
  have hroot : nd.room = root := by
    have := hinv.det root.id nd (alook_head hhead)
    rw [this, roomOfId_self]
  cases hn : st.nodes with
  | nil => rw [hn] at hhead; cases hhead
  | cons hd tl =>
      rw [hn] at hhead
      simp only [List.head?_cons, Option.some.injEq] at hhead
      subst hhead
      unfold findOriginal
      rw [hn]
      rw [List.find?_cons_of_pos]
      · simp [hroot]
      · simp [hroot, hinv.rootOrd]

/-- A live node's room carries its arena key as id. -/
theorem live_room_id {root : Room} {mo : ℕ} {st : BuildSt}
    (hinv : BInv root mo st) {i : RoomId} {nd : RoomNodeE}
    (h : alook st.nodes i = some nd) : nd.room.id = i := by
  rw [hinv.det i nd h]
  exact roomOfId_id root i (hinv.depthInv i nd h)

/-- A live node's room sits at its id-determined position. -/
theorem live_room_pos {root : Room} {mo : ℕ} {st : BuildSt}
    (hinv : BInv root mo st) {i : RoomId} {nd : RoomNodeE}
    (h : alook st.nodes i = some nd) :
    nd.room.position = posOfId root i := by
  rw [hinv.det i nd h, roomOfId_position]

/-! ### Eviction preserves the invariant -/

/-- Unfolding of `evictOne` at a dead id. -/
theorem evictOne_none {posKey : IPos} {snapshot : List RoomId} {c : ℕ}
    {st : BuildSt} {i : RoomId} (h : alook st.nodes i = none) :
    evictOne posKey snapshot c st i = st := by
  unfold evictOne
  rw [h]

/-- Unfolding of `evictOne` at a live id. -/
theorem evictOne_some {posKey : IPos} {snapshot : List RoomId} {c : ℕ}
    {st : BuildSt} {i : RoomId} {nd : RoomNodeE}
    (h : alook st.nodes i = some nd) :
    evictOne posKey snapshot c st i =
      if c + 1 < nd.room.reflectionOrder then
        { nodes := aerase (match nd.parent with
            | some pid => amodify st.nodes pid (fun pe =>
                { pe with children := pe.children.filter (fun c => c ≠ i) })
            | none => st.nodes) i
          posMap := aset st.posMap posKey
            (snapshot.filter (fun r => r ≠ i)) }
      else st := by
  unfold evictOne
  rw [h]

/-- One eviction step: the invariant is preserved; live nodes only
shrink (with unchanged rooms, parents, and sub-children); only the
processed id dies, and only when its order exceeds `c + 1`; if the
processed id is recorded with high order it is dead afterwards. -/
theorem evictOne_spec {root : Room} {mo : ℕ} {st : BuildSt}
    (hinv : BInv root mo st) {posKey : IPos} {snapshot : List RoomId}
    {c : ℕ} {i : RoomId} (hi : i ∈ snapshot)
    (hsnap : ∀ j ∈ snapshot, posOfId root j = posKey)
    (hcomp : ∀ j nd, alook st.nodes j = some nd →
      posOfId root j = posKey → j ∈ snapshot) :
    BInv root mo (evictOne posKey snapshot c st i) ∧
    (∀ j nd2, alook (evictOne posKey snapshot c st i).nodes j = some nd2 →
      ∃ nd, alook st.nodes j = some nd ∧ nd.room = nd2.room ∧
        nd.parent = nd2.parent ∧ nd2.children.Sublist nd.children) ∧
    (∀ j nd, alook st.nodes j = some nd →
      alook (evictOne posKey snapshot c st i).nodes j = none →
      nd.room.position = posKey ∧ c + 1 < nd.room.reflectionOrder) ∧
    (∀ j, alook st.nodes j = none →
      alook (evictOne posKey snapshot c st i).nodes j = none) ∧
    ((∀ nd, alook st.nodes i = some nd → c + 1 < nd.room.reflectionOrder) →
      alook (evictOne posKey snapshot c st i).nodes i = none) := by
  rcases hni : alook st.nodes i with _ | nd
  · rw [evictOne_none hni]
    refine ⟨hinv, ?_, ?_, ?_, ?_⟩
    · intro j nd2 h
      exact ⟨nd2, h, rfl, rfl, List.Sublist.refl _⟩
    · intro j nd h1 h2
      rw [h1] at h2
      cases h2
    · intro j h
      exact h
    · intro _
      exact hni
  · rw [evictOne_some hni]
    split_ifs with hord
    · -- the node is evicted
      have hposi : posOfId root i = posKey := hsnap i hi
      have hiroot : i ≠ root.id := by
        intro h
        have hroom := hinv.det i nd hni
        rw [h, roomOfId_self] at hroom
        rw [hroom, hinv.rootOrd] at hord
        omega
      -- characterize lookups in the detached arena
      have hchar : ∀ j nd2,
          alook (match nd.parent with
            | some pid => amodify st.nodes pid
                (fun pe => { pe with
                  children := pe.children.filter (fun c => c ≠ i) })
            | none => st.nodes) j = some nd2 →
          ∃ nd0, alook st.nodes j = some nd0 ∧ nd2.room = nd0.room ∧
            nd2.parent = nd0.parent ∧ nd2.children.Sublist nd0.children ∧
            i ∉ nd2.children := by
        intro j nd2 h
        rcases hp : nd.parent with _ | pid
        · rw [hp] at h
          refine ⟨nd2, h, rfl, rfl, List.Sublist.refl _, ?_⟩
          intro hmem
          obtain ⟨cnd, hcnd, hpar⟩ := hinv.childLive j nd2 h i hmem
          rw [hni] at hcnd
          cases hcnd
          rw [hp] at hpar
          cases hpar
        · rw [hp] at h
          rw [alook_amodify] at h
          by_cases hjp : j = pid
          · subst hjp
            rw [if_pos rfl] at h
            rcases h0 : alook st.nodes j with _ | nd0
            · rw [h0] at h
              cases h
            · rw [h0] at h
              have h3 := Option.some.inj h
              subst h3
              refine ⟨nd0, rfl, rfl, rfl, List.filter_sublist _, ?_⟩
              intro hmem
              simp at hmem
          · rw [if_neg hjp] at h
            refine ⟨nd2, h, rfl, rfl, List.Sublist.refl _, ?_⟩
            intro hmem
            obtain ⟨cnd, hcnd, hpar⟩ := hinv.childLive j nd2 h i hmem
            rw [hni] at hcnd
            cases hcnd
            rw [hp] at hpar
            exact hjp (Option.some.inj hpar).symm
      have hlook : ∀ j, alook (aerase (match nd.parent with
            | some pid => amodify st.nodes pid
                (fun pe => { pe with
                  children := pe.children.filter (fun c => c ≠ i) })
            | none => st.nodes) i) j =
          if j = i then none else alook (match nd.parent with
            | some pid => amodify st.nodes pid
                (fun pe => { pe with
                  children := pe.children.filter (fun c => c ≠ i) })
            | none => st.nodes) j := by
        intro j
        exact alook_aerase _ i j
      -- liveness characterization relative to the old state
      have hshrink : ∀ j nd2, alook (aerase (match nd.parent with
            | some pid => amodify st.nodes pid
                (fun pe => { pe with
                  children := pe.children.filter (fun c => c ≠ i) })
            | none => st.nodes) i) j = some nd2 →
          j ≠ i ∧ ∃ nd0, alook st.nodes j = some nd0 ∧
            nd2.room = nd0.room ∧ nd2.parent = nd0.parent ∧
            nd2.children.Sublist nd0.children ∧ i ∉ nd2.children := by
        intro j nd2 h
        rw [hlook] at h
        by_cases hji : j = i
        · rw [if_pos hji] at h
          cases h
        · rw [if_neg hji] at h
          exact ⟨hji, hchar j nd2 h⟩
      constructor
      · -- the invariant survives the eviction
        refine ⟨hinv.rootOrd, ?_, ?_, ?_, ?_, ?_, ?_, ?_, ?_, ?_, ?_, ?_⟩
        · intro j nd2 h
          obtain ⟨-, nd0, h0, hroom, -, -, -⟩ := hshrink j nd2 h
          rw [hroom]
          exact hinv.det j nd0 h0
        · intro j nd2 h
          obtain ⟨-, nd0, h0, -, -, -, -⟩ := hshrink j nd2 h
          exact hinv.depthInv j nd0 h0
        · intro j nd2 h
          obtain ⟨hji, nd0, h0, -, -, -, -⟩ := hshrink j nd2 h
          by_cases hq : posOfId root j = posKey
          · rw [hq, alook_aset_self]
            simp only [Option.getD_some]
            rw [List.mem_filter]
            refine ⟨hcomp j nd0 h0 hq, ?_⟩
            simp [hji]
          · simp only [alook_aset_ne st.posMap posKey _ _ hq]
            exact hinv.complete j nd0 h0
        · intro p l hl j hj
          by_cases hq : p = posKey
          · subst hq
            rw [alook_aset_self] at hl
            cases hl
            exact hsnap j (List.mem_of_mem_filter hj)
          · rw [alook_aset_ne st.posMap posKey _ _ hq] at hl
            exact hinv.listedDet p l hl j hj
        · intro j1 j2 n1 n2 h1 h2 hpos
          obtain ⟨-, nd1, hh1, hr1, -, -, -⟩ := hshrink j1 n1 h1
          obtain ⟨-, nd2b, hh2, hr2, -, -, -⟩ := hshrink j2 n2 h2
          exact hinv.uniq j1 j2 nd1 nd2b hh1 hh2
            (by rw [← hr1, ← hr2]; exact hpos)
        · intro j nd2 h
          obtain ⟨-, nd0, h0, hroom, -, -, -⟩ := hshrink j nd2 h
          rw [hroom]
          exact hinv.reach j nd0 h0
        · intro j nd2 h
          obtain ⟨-, nd0, h0, hroom, -, -, -⟩ := hshrink j nd2 h
          rw [hroom]
          exact hinv.ordBound j nd0 h0
        · intro j nd2 h
          obtain ⟨-, nd0, h0, -, -, hsub, -⟩ := hshrink j nd2 h
          exact (hinv.childNodup j nd0 h0).sublist hsub
        · intro j nd2 h cc hcc
          obtain ⟨-, nd0, h0, -, -, hsub, hnoti⟩ := hshrink j nd2 h
          have hccst := hinv.childLive j nd0 h0 cc (hsub.mem hcc)
          obtain ⟨cnd, hcnd, hpar⟩ := hccst
          have hcci : cc ≠ i := fun h2 => hnoti (h2 ▸ hcc)
          rw [hlook, if_neg hcci]
          rcases hp : nd.parent with _ | pid
          · exact ⟨cnd, hcnd, hpar⟩
          · rw [alook_amodify]
            by_cases hcp : cc = pid
            · subst hcp
              rw [if_pos rfl, hcnd]
              exact ⟨_, rfl, hpar⟩
            · rw [if_neg hcp]
              exact ⟨cnd, hcnd, hpar⟩
        · intro j nd2 h
          obtain ⟨-, nd0, h0, -, hpar, -, -⟩ := hshrink j nd2 h
          rw [hpar]
          exact hinv.parentDet j nd0 h0
        · obtain ⟨nd0, hh⟩ := hinv.rootFirst
          rcases hp : nd.parent with _ | pid
          · exact ⟨nd0, head_aerase hh (fun h => hiroot h.symm)⟩
          · obtain ⟨b2, hb2⟩ := head_amodify hh pid
              (fun pe => { pe with
                children := pe.children.filter (fun c => c ≠ i) })
            exact ⟨b2, head_aerase hb2 (fun h => hiroot h.symm)⟩
      refine ⟨?_, ?_, ?_, ?_⟩
      · intro j nd2 h
        obtain ⟨-, nd0, h0, hroom, hpar, hsub, -⟩ := hshrink j nd2 h
        exact ⟨nd0, h0, hroom.symm, hpar.symm, hsub⟩
      · intro j nd0 h0 hdead
        rw [hlook] at hdead
        by_cases hji : j = i
        · subst hji
          rw [h0] at hni
          cases hni
          constructor
          · rw [live_room_pos hinv h0, hposi]
          · exact hord
        · rw [if_neg hji] at hdead
          exfalso
          rcases hp : nd.parent with _ | pid
          · rw [hp] at hdead
            rw [h0] at hdead
            cases hdead
          · rw [hp, alook_amodify] at hdead
            by_cases hjp : j = pid
            · subst hjp
              rw [if_pos rfl, h0] at hdead
              cases hdead
            · rw [if_neg hjp, h0] at hdead
              cases hdead
      · intro j hdead
        rw [hlook]
        by_cases hji : j = i
        · rw [if_pos hji]
        · rw [if_neg hji]
          rcases hp : nd.parent with _ | pid
          · exact hdead
          · rw [alook_amodify]
            by_cases hjp : j = pid
            · subst hjp
              rw [if_pos rfl, hdead]
              rfl
            · rw [if_neg hjp]
              exact hdead
      · intro _
        rw [hlook, if_pos rfl]
    · -- low order: nothing happens
      refine ⟨hinv, ?_, ?_, ?_, ?_⟩
      · intro j nd2 h
        exact ⟨nd2, h, rfl, rfl, List.Sublist.refl _⟩
      · intro j nd0 h1 h2
        rw [h1] at h2
        cases h2
      · intro j h
        exact h
      · intro hhyp
        exact absurd (hhyp nd rfl) hord

/-- The eviction fold: the invariant is preserved, live nodes shrink
with unchanged rooms, killed nodes sat at the key with high order,
dead ids stay dead, and every processed id ends up dead. -/
theorem evictAll_fold_spec {root : Room} {mo : ℕ} {posKey : IPos}
    {snapshot : List RoomId} {c : ℕ} :
    ∀ (todo : List RoomId) (st : BuildSt), BInv root mo st →
    (∀ j ∈ todo, j ∈ snapshot) →
    (∀ j ∈ snapshot, posOfId root j = posKey) →
    (∀ j nd, alook st.nodes j = some nd → posOfId root j = posKey →
      j ∈ snapshot) →
    (∀ j ∈ snapshot, ∀ nd, alook st.nodes j = some nd →
      c + 1 < nd.room.reflectionOrder) →
    BInv root mo (todo.foldl (evictOne posKey snapshot c) st) ∧
    (∀ j nd2,
      alook (todo.foldl (evictOne posKey snapshot c) st).nodes j =
        some nd2 →
      ∃ nd, alook st.nodes j = some nd ∧ nd.room = nd2.room) ∧
    (∀ j nd, alook st.nodes j = some nd →
      alook (todo.foldl (evictOne posKey snapshot c) st).nodes j = none →
      nd.room.position = posKey ∧ c + 1 < nd.room.reflectionOrder) ∧
    (∀ j, alook st.nodes j = none →
      alook (todo.foldl (evictOne posKey snapshot c) st).nodes j = none) ∧
    (∀ j ∈ todo,
      alook (todo.foldl (evictOne posKey snapshot c) st).nodes j =
        none) := by
  intro todo
  induction todo with
  | nil =>
      intro st hinv _ _ _ _
      simp only [List.foldl_nil]
      refine ⟨hinv, ?_, ?_, ?_, ?_⟩
      · intro j nd2 h
        exact ⟨nd2, h, rfl⟩
      · intro j nd h1 h2
        rw [h1] at h2
        cases h2
      · intro j h
        exact h
      · intro j hj
        cases hj
  | cons i rest ih =>
      intro st hinv hsub hsnap hcomp hhigh
      obtain ⟨hinv1, shrink1, kills1, dead1, killi⟩ :=
        evictOne_spec hinv (hsub i (List.mem_cons_self i rest)) hsnap hcomp
      have hcomp1 : ∀ j nd, alook (evictOne posKey snapshot c st i).nodes j =
          some nd → posOfId root j = posKey → j ∈ snapshot := by
        intro j nd h hq
        obtain ⟨nd0, h0, -⟩ := shrink1 j nd h
        exact hcomp j nd0 h0 hq
      have hhigh1 : ∀ j ∈ snapshot, ∀ nd,
          alook (evictOne posKey snapshot c st i).nodes j = some nd →
          c + 1 < nd.room.reflectionOrder := by
        intro j hj nd h
        obtain ⟨nd0, h0, hroom, -, -⟩ := shrink1 j nd h
        rw [← hroom]
        exact hhigh j hj nd0 h0
      obtain ⟨hinvR, shrinkR, killsR, deadR⟩ := ih
        (evictOne posKey snapshot c st i) hinv1
        (fun j hj => hsub j (List.mem_cons_of_mem i hj)) hsnap hcomp1 hhigh1
      have hstep : (i :: rest).foldl (evictOne posKey snapshot c) st =
          rest.foldl (evictOne posKey snapshot c)
            (evictOne posKey snapshot c st i) := rfl
      rw [hstep]
      obtain ⟨deadRstay, allDeadR⟩ := deadR
      refine ⟨hinvR, ?_, ?_, ?_, ?_⟩
      · intro j nd2 h
        obtain ⟨nd1, h1, hr1⟩ := shrinkR j nd2 h
        obtain ⟨nd0, h0, hr0, -, -⟩ := shrink1 j nd1 h1
        exact ⟨nd0, h0, hr0.trans hr1⟩
      · intro j nd h1 h2
        rcases hl1 : alook (evictOne posKey snapshot c st i).nodes j
          with _ | nd1
        · exact kills1 j nd h1 hl1
        · obtain ⟨hq, hord2⟩ := killsR j nd1 hl1 h2
          obtain ⟨nd0, h0, hr0, -, -⟩ := shrink1 j nd1 hl1
          rw [h0] at h1
          cases h1
          rw [hr0]
          exact ⟨hq, hord2⟩
      · intro j h
        exact deadRstay j (dead1 j h)
      · intro j hj
        rcases List.mem_cons.mp hj with rfl | hj2
        · exact deadRstay j (killi (fun nd h => hhigh j
            (hsub j (List.mem_cons_self j rest)) nd h))
        · exact allDeadR j hj2

/-- Installing a fresh virtual room at an unoccupied position: the
invariant is preserved, the child is reported and live, all old nodes
survive with their rooms and parents, and the child is the only new
node. -/
theorem installRoom_spec {root : Room} {mo : ℕ} {st : BuildSt}
    (hinv : BInv root mo st) {u : RoomId} {uRoom : Room} {ndu : RoomNodeE}
    (hu : alook st.nodes u = some ndu) (hur : ndu.room = uRoom)
    {c : ℕ} (hord : uRoom.reflectionOrder = c) (hc : c < mo)
    {w : Wall} (hw : uRoom.walls.get w = true)
    {position : IPos} (hpos : position = stepPos uRoom.position w)
    (hnolive : ∀ j nd, alook st.nodes j = some nd →
      nd.room.position ≠ position) :
    BInv root mo
      (installRoom u (createVirtualRoom uRoom w position (c + 1))
        position st).1 ∧
    (installRoom u (createVirtualRoom uRoom w position (c + 1))
        position st).2 =
      some (RoomId.child u w (c + 1),
        createVirtualRoom uRoom w position (c + 1)) ∧
    alook (installRoom u (createVirtualRoom uRoom w position (c + 1))
        position st).1.nodes (RoomId.child u w (c + 1)) =
      some ⟨createVirtualRoom uRoom w position (c + 1), some u, []⟩ ∧
    (∀ j nd, alook st.nodes j = some nd →
      ∃ nd2, alook (installRoom u
          (createVirtualRoom uRoom w position (c + 1)) position st).1.nodes
          j = some nd2 ∧ nd2.room = nd.room) ∧
    (∀ j nd, alook (installRoom u
        (createVirtualRoom uRoom w position (c + 1)) position st).1.nodes
        j = some nd → alook st.nodes j = none →
      j = RoomId.child u w (c + 1) ∧
        nd.room = createVirtualRoom uRoom w position (c + 1)) := by
  have huid : uRoom.id = u := by
    rw [← hur]
    exact live_room_id hinv hu
  have hupos : uRoom.position = posOfId root u := by
    rw [← hur]
    exact live_room_pos hinv hu
  have hcid : (createVirtualRoom uRoom w position (c + 1)).id =
      RoomId.child u w (c + 1) := by
    simp [createVirtualRoom, generateRoomId, huid]
  have hdepthu : idDepth root.id ≤ idDepth u := hinv.depthInv u ndu hu
  have hne : RoomId.child u w (c + 1) ≠ root.id := by
    intro h
    have := congrArg idDepth h
    simp only [idDepth] at this
    omega
  have hposcid : posOfId root (RoomId.child u w (c + 1)) = position := by
    simp only [posOfId, if_neg hne]
    rw [← hupos, ← hpos]
  have hdead : alook st.nodes (RoomId.child u w (c + 1)) = none := by
    rcases h : alook st.nodes (RoomId.child u w (c + 1)) with _ | nd
    · rfl
    · exfalso
      refine hnolive _ nd h ?_
      rw [live_room_pos hinv h, hposcid]
  have hdet : createVirtualRoom uRoom w position (c + 1) =
      roomOfId root (RoomId.child u w (c + 1)) := by
    have h1 : uRoom.width = root.width := by
      rw [← hur, hinv.det u ndu hu, roomOfId_width]
    have h2 : uRoom.height = root.height := by
      rw [← hur, hinv.det u ndu hu, roomOfId_height]
    have h3 : uRoom.walls = configFor root (posOfId root u) := by
      rw [← hur, hinv.det u ndu hu, roomOfId_walls]
    simp only [createVirtualRoom, generateRoomId, roomOfId, huid,
      if_neg hne]
    rw [h1, h2, h3, configFor_step, hpos, hupos]
  have hcu : RoomId.child u w (c + 1) ≠ u := child_ne_parent u w (c + 1)
  -- reduce the installation
  have hcond : ¬ ((alook st.nodes
      (createVirtualRoom uRoom w position (c + 1)).id).isSome = true) := by
    rw [hcid, hdead]
    simp
  rw [installRoom, if_neg hcond]
  simp only []
  -- lookup characterizations
  have hlook1 : ∀ j, alook (amodify st.nodes u (fun pe => { pe with
      children := pe.children ++
        [(createVirtualRoom uRoom w position (c + 1)).id] })) j =
      if j = u then (alook st.nodes u).map (fun pe => { pe with
        children := pe.children ++
          [(createVirtualRoom uRoom w position (c + 1)).id] })
      else alook st.nodes j := by
    intro j
    exact alook_amodify _ _ _ _
  have hlook2 : ∀ j, alook ((amodify st.nodes u (fun pe => { pe with
      children := pe.children ++
        [(createVirtualRoom uRoom w position (c + 1)).id] }) ++
      [((createVirtualRoom uRoom w position (c + 1)).id,
        ⟨createVirtualRoom uRoom w position (c + 1), some u, []⟩)])) j =
      if j = (createVirtualRoom uRoom w position (c + 1)).id then
        some ⟨createVirtualRoom uRoom w position (c + 1), some u, []⟩
      else alook (amodify st.nodes u (fun pe => { pe with
        children := pe.children ++
          [(createVirtualRoom uRoom w position (c + 1)).id] })) j := by
    intro j
    rw [alook_append_sing]
    by_cases hj : j = (createVirtualRoom uRoom w position (c + 1)).id
    · rw [if_pos hj, if_pos hj, hlook1]
      rw [hcid] at *
      rw [if_neg hcu, hdead]
      rfl
    · rw [if_neg hj, if_neg hj]
  have hsplit : ∀ j nd2, alook ((amodify st.nodes u (fun pe => { pe with
      children := pe.children ++
        [(createVirtualRoom uRoom w position (c + 1)).id] }) ++
      [((createVirtualRoom uRoom w position (c + 1)).id,
        ⟨createVirtualRoom uRoom w position (c + 1), some u, []⟩)])) j =
        some nd2 →
      (j = RoomId.child u w (c + 1) ∧
        nd2 = ⟨createVirtualRoom uRoom w position (c + 1), some u, []⟩) ∨
      (j ≠ RoomId.child u w (c + 1) ∧ ∃ nd, alook st.nodes j = some nd ∧
        nd2.room = nd.room ∧ nd2.parent = nd.parent ∧
        (nd2.children = nd.children ∨ (j = u ∧
          nd2.children = nd.children ++ [RoomId.child u w (c + 1)]))) := by
    intro j nd2 h
    rw [hlook2] at h
    by_cases hj : j = (createVirtualRoom uRoom w position (c + 1)).id
    · rw [if_pos hj] at h
      exact Or.inl ⟨hj.trans hcid, (Option.some.inj h).symm⟩
    · rw [if_neg hj] at h
      rw [hlook1] at h
      refine Or.inr ⟨fun hx => hj (hx.trans hcid.symm), ?_⟩
      by_cases hju : j = u
      · rw [if_pos hju] at h
        rw [hu] at h
        have h3 := Option.some.inj h
        exact ⟨ndu, by rw [hju]; exact hu, by rw [← h3], by rw [← h3],
          Or.inr ⟨hju, by rw [← h3, hcid]⟩⟩
      · rw [if_neg hju] at h
        exact ⟨nd2, h, rfl, rfl, Or.inl rfl⟩
  refine ⟨?_, ?_, ?_, ?_, ?_⟩
  · -- the invariant survives the installation
    refine ⟨hinv.rootOrd, ?_, ?_, ?_, ?_, ?_, ?_, ?_, ?_, ?_, ?_, ?_⟩
    · intro j nd2 h
      rcases hsplit j nd2 h with ⟨hj, hnd⟩ | ⟨hj, nd, h0, hroom, -, -⟩
      · rw [hnd, hj]
        exact hdet
      · rw [hroom]
        exact hinv.det j nd h0
    · intro j nd2 h
      rcases hsplit j nd2 h with ⟨hj, -⟩ | ⟨-, nd, h0, -, -, -⟩
      · rw [hj]
        simp only [idDepth]
        omega
      · exact hinv.depthInv j nd h0
    · intro j nd2 h
      rcases hsplit j nd2 h with ⟨hj, -⟩ | ⟨-, nd, h0, -, -, -⟩
      · subst hj
        rw [hposcid, alook_aset_self]
        simp [hcid]
      · have hq : posOfId root j ≠ position := by
          rw [← live_room_pos hinv h0]
          exact hnolive j nd h0
        rw [alook_aset_ne st.posMap position _ _ hq]
        exact hinv.complete j nd h0
    · intro p l hl j hj
      by_cases hp : p = position
      · subst hp
        rw [alook_aset_self] at hl
        cases hl
        rcases List.mem_append.mp hj with hj1 | hj1
        · rcases hpm : alook st.posMap p with _ | l0
          · rw [hpm] at hj1
            cases hj1
          · rw [hpm] at hj1
            exact hinv.listedDet p l0 hpm j hj1
        · rw [hcid] at hj1
          rw [List.mem_singleton.mp hj1]
          exact hposcid
      · rw [alook_aset_ne st.posMap position _ _ hp] at hl
        exact hinv.listedDet p l hl j hj
    · intro j1 j2 n1 n2 h1 h2 hposeq
      rcases hsplit j1 n1 h1 with ⟨hj1, hn1⟩ | ⟨hj1, nd1, h01, hr1, -, -⟩ <;>
        rcases hsplit j2 n2 h2 with ⟨hj2, hn2⟩ | ⟨hj2, nd2b, h02, hr2, -, -⟩
      · rw [hj1, hj2]
      · exfalso
        rw [hn1] at hposeq
        refine hnolive j2 nd2b h02 ?_
        rw [← hr2, ← hposeq]
        rw [hpos]
        rfl
      · exfalso
        rw [hn2] at hposeq
        refine hnolive j1 nd1 h01 ?_
        rw [← hr1, hposeq, hpos]
        rfl
      · exact hinv.uniq j1 j2 nd1 nd2b h01 h02
          (by rw [← hr1, ← hr2]; exact hposeq)
    · intro j nd2 h
      rcases hsplit j nd2 h with ⟨hj, hnd⟩ | ⟨-, nd, h0, hroom, -, -⟩
      · rw [hnd]
        have hbase := hinv.reach u ndu hu
        rw [hur, hord] at hbase
        have hstep := ReachCfg.step w hbase hw
        rw [← hpos] at hstep
        exact hstep
      · rw [hroom]
        exact hinv.reach j nd h0
    · intro j nd2 h
      rcases hsplit j nd2 h with ⟨-, hnd⟩ | ⟨-, nd, h0, hroom, -, -⟩
      · rw [hnd]
        show c + 1 ≤ mo
        omega
      · rw [hroom]
        exact hinv.ordBound j nd h0
    · intro j nd2 h
      rcases hsplit j nd2 h with ⟨-, hnd⟩ | ⟨-, nd, h0, -, -, hch⟩
      · rw [hnd]
        exact List.nodup_nil
      · have hnotmem : RoomId.child u w (c + 1) ∉ nd.children := by
          intro hmem
          obtain ⟨cnd, hcnd, -⟩ := hinv.childLive j nd h0 _ hmem
          rw [hdead] at hcnd
          cases hcnd
        rcases hch with hch | ⟨-, hch⟩
        · rw [hch]
          exact hinv.childNodup j nd h0
        · rw [hch]
          rw [List.nodup_append]
          refine ⟨hinv.childNodup j nd h0, List.nodup_singleton _, ?_⟩
          intro x hx hx2
          rw [List.mem_singleton.mp hx2] at hx
          exact hnotmem hx
    · intro j nd2 h cc hcc
      rcases hsplit j nd2 h with ⟨hj, hnd⟩ | ⟨-, nd, h0, -, -, hch⟩
      · rw [hnd] at hcc
        cases hcc
      · have hold : ∀ cc2 ∈ nd.children, ∃ cnd2,
            alook ((amodify st.nodes u (fun pe => { pe with
              children := pe.children ++
                [(createVirtualRoom uRoom w position (c + 1)).id] }) ++
              [((createVirtualRoom uRoom w position (c + 1)).id,
                ⟨createVirtualRoom uRoom w position (c + 1), some u,
                  []⟩)])) cc2 = some cnd2 ∧ cnd2.parent = some j := by
          intro cc2 hcc2
          obtain ⟨cnd, hcnd, hpar⟩ := hinv.childLive j nd h0 cc2 hcc2
          have hccnew : cc2 ≠ (createVirtualRoom uRoom w position
              (c + 1)).id := by
            intro heq
            rw [heq, hcid, hdead] at hcnd
            cases hcnd
          rw [hlook2, if_neg hccnew, hlook1]
          by_cases hcu2 : cc2 = u
          · subst hcu2
            rw [if_pos rfl, hu]
            rw [hu] at hcnd
            have h3 := Option.some.inj hcnd
            subst h3
            exact ⟨_, rfl, hpar⟩
          · rw [if_neg hcu2]
            exact ⟨cnd, hcnd, hpar⟩
        rcases hch with hch | ⟨hju, hch⟩
        · rw [hch] at hcc
          exact hold cc hcc
        · rw [hch] at hcc
          rcases List.mem_append.mp hcc with hcc1 | hcc1
          · exact hold cc hcc1
          · rw [List.mem_singleton.mp hcc1]
            rw [hlook2, if_pos hcid.symm]
            exact ⟨_, rfl, by rw [hju]⟩
    · intro j nd2 h
      rcases hsplit j nd2 h with ⟨hj, hnd⟩ | ⟨-, nd, h0, -, hpar, -⟩
      · rw [hnd, hj]
        simp only [parentOfId, if_neg hne]
      · rw [hpar]
        exact hinv.parentDet j nd h0
    · obtain ⟨nd0, hh⟩ := hinv.rootFirst
      obtain ⟨b2, hb2⟩ := head_amodify hh u (fun pe => { pe with
        children := pe.children ++
          [(createVirtualRoom uRoom w position (c + 1)).id] })
      exact ⟨b2, head_append hb2 _⟩
  · rw [hcid]
  · rw [hlook2, if_pos hcid.symm]
  · intro j nd h0
    have hjnew : j ≠ (createVirtualRoom uRoom w position (c + 1)).id := by
      intro hj
      rw [hj, hcid, hdead] at h0
      cases h0
    rw [hlook2, if_neg hjnew, hlook1]
    by_cases hju : j = u
    · subst hju
      rw [if_pos rfl, hu]
      rw [hu] at h0
      have h3 := Option.some.inj h0
      subst h3
      exact ⟨_, rfl, rfl⟩
    · rw [if_neg hju]
      exact ⟨nd, h0, rfl⟩
  · intro j nd h hdead2
    rcases hsplit j nd h with ⟨hj, hnd⟩ | ⟨-, nd0, h0, -, -, -⟩
    · exact ⟨hj, by rw [hnd]⟩
    · rw [h0] at hdead2
      cases hdead2

/-- Coercion arithmetic for the order guard. -/
theorem coe_succ_withTop (c : ℕ) :
    ((c : WithTop ℕ) + 1) = ((c + 1 : ℕ) : WithTop ℕ) := by
  norm_cast

/-- One wall step of the builder: the invariant is preserved, low
orders survive, occupancy only improves, the wall obligation is
discharged, new nodes are exactly the reported child, and a reported
child is live with order `c + 1`. -/
theorem cvrStep_spec {root : Room} {mo : ℕ} {st : BuildSt}
    (hinv : BInv root mo st) {u : RoomId} {uRoom : Room} {c : ℕ}
    (hu : ∃ nd, alook st.nodes u = some nd ∧ nd.room = uRoom)
    (hord : uRoom.reflectionOrder = c) (hc : c < mo) (w : Wall) :
    BInv root mo (cvrStep root u uRoom c w st).1 ∧
    Preserves (c + 1) st (cvrStep root u uRoom c w st).1 ∧
    Mono st (cvrStep root u uRoom c w st).1 ∧
    WallDone root (cvrStep root u uRoom c w st).1 uRoom w c ∧
    (∀ j nd, alook (cvrStep root u uRoom c w st).1.nodes j = some nd →
      alook st.nodes j = none →
      (cvrStep root u uRoom c w st).2 = some (j, nd.room)) ∧
    (∀ cid croom, (cvrStep root u uRoom c w st).2 = some (cid, croom) →
      (∃ nd, alook (cvrStep root u uRoom c w st).1.nodes cid = some nd ∧
        nd.room = croom) ∧ croom.reflectionOrder = c + 1) := by
  obtain ⟨ndu, hndu, hur⟩ := hu
  simp only [cvrStep]
  split_ifs with h1 h2 h3 h4
  · -- wall not mirrored
    refine ⟨hinv, ?_, ?_, Or.inl h1, ?_, ?_⟩
    · intro j nd h hle
      exact ⟨nd, h, rfl⟩
    · intro p m h
      exact h
    · intro j nd h hdead
      rw [h] at hdead
      cases hdead
    · intro cid croom h
      cases h
  · -- skip at the original room's position
    refine ⟨hinv, ?_, ?_, ?_, ?_, ?_⟩
    · intro j nd h hle
      exact ⟨nd, h, rfl⟩
    · intro p m h
      exact h
    · refine Or.inr (Or.inl ?_)
      rw [← getVirtualRoomPosition_eq]
      exact h2.1
    · intro j nd h hdead
      rw [h] at hdead
      cases hdead
    · intro cid croom h
      cases h
  · -- an existing low-order room blocks the installation
    refine ⟨hinv, ?_, ?_, ?_, ?_, ?_⟩
    · intro j nd h hle
      exact ⟨nd, h, rfl⟩
    · intro p m h
      exact h
    · refine Or.inr (Or.inr ?_)
      have hle : lowestOrderAt st
          ((alook st.posMap (getVirtualRoomPosition uRoom w)).getD []) ≤
          ((c + 1 : ℕ) : WithTop ℕ) := by
        rw [← coe_succ_withTop]
        exact h4
      obtain ⟨i, hi, nd, hnd, hord2⟩ :=
        (lowestOrderAt_le_iff st _ (c + 1)).mp hle
      rcases hpm : alook st.posMap (getVirtualRoomPosition uRoom w)
        with _ | l
      · rw [hpm] at hi
        cases hi
      · rw [hpm] at hi
        simp only [Option.getD_some] at hi
        refine ⟨i, nd, hnd, ?_, hord2⟩
        rw [live_room_pos hinv hnd, ← getVirtualRoomPosition_eq]
        exact hinv.listedDet _ l hpm i hi
    · intro j nd h hdead
      rw [h] at hdead
      cases hdead
    · intro cid croom h
      cases h
  · -- evict the higher-order rooms, then install
    have hw : uRoom.walls.get w = true := by
      rcases Bool.eq_false_or_eq_true (uRoom.walls.get w) with ht | hf
      · exact ht
      · exact absurd hf h1
    have hexist : alook st.posMap (getVirtualRoomPosition uRoom w) =
        some ((alook st.posMap (getVirtualRoomPosition uRoom w)).getD
          []) := by
      rcases hpm : alook st.posMap (getVirtualRoomPosition uRoom w)
        with _ | l
      · exfalso
        apply h3
        rw [hpm]
        rfl
      · rfl
    have hsnap : ∀ j ∈ (alook st.posMap
        (getVirtualRoomPosition uRoom w)).getD [],
        posOfId root j = getVirtualRoomPosition uRoom w :=
      fun j hj => hinv.listedDet _ _ hexist j hj
    have hcomp : ∀ j nd, alook st.nodes j = some nd →
        posOfId root j = getVirtualRoomPosition uRoom w →
        j ∈ (alook st.posMap (getVirtualRoomPosition uRoom w)).getD [] := by
      intro j nd hj hq
      have := hinv.complete j nd hj
      rw [hq] at this
      exact this
    have hhigh : ∀ j ∈ (alook st.posMap
        (getVirtualRoomPosition uRoom w)).getD [], ∀ nd,
        alook st.nodes j = some nd → c + 1 < nd.room.reflectionOrder := by
      intro j hj nd hnd
      by_contra hle2
      push_neg at hle2
      apply h4
      rw [ge_iff_le, coe_succ_withTop]
      exact (lowestOrderAt_le_iff st _ (c + 1)).mpr ⟨j, hj, nd, hnd, hle2⟩
    have hfold := evictAll_fold_spec
      ((alook st.posMap (getVirtualRoomPosition uRoom w)).getD []) st hinv
      (fun j hj => hj) hsnap hcomp hhigh
    obtain ⟨hinv1, shrink1, kills1, deadStay1, allDead1⟩ := hfold
    rw [show evictAll (getVirtualRoomPosition uRoom w)
        ((alook st.posMap (getVirtualRoomPosition uRoom w)).getD []) c st =
        ((alook st.posMap (getVirtualRoomPosition uRoom w)).getD
          []).foldl (evictOne (getVirtualRoomPosition uRoom w)
          ((alook st.posMap (getVirtualRoomPosition uRoom w)).getD []) c)
          st from rfl]
    have hu1 : ∃ nd1, alook (((alook st.posMap
        (getVirtualRoomPosition uRoom w)).getD []).foldl
        (evictOne (getVirtualRoomPosition uRoom w)
          ((alook st.posMap (getVirtualRoomPosition uRoom w)).getD []) c)
        st).nodes u = some nd1 ∧ nd1.room = uRoom := by
      rcases hl1 : alook (((alook st.posMap
          (getVirtualRoomPosition uRoom w)).getD []).foldl
          (evictOne (getVirtualRoomPosition uRoom w)
            ((alook st.posMap (getVirtualRoomPosition uRoom w)).getD [])
            c) st).nodes u with _ | nd1
      · exfalso
        obtain ⟨-, hord2⟩ := kills1 u ndu hndu hl1
        rw [hur, hord] at hord2
        omega
      · obtain ⟨nd0, h0, hroom⟩ := shrink1 u nd1 hl1
        rw [hndu] at h0
        cases h0
        exact ⟨nd1, rfl, by rw [← hroom, hur]⟩
    obtain ⟨ndu1, hndu1, hur1⟩ := hu1
    have hnolive1 : ∀ j nd, alook (((alook st.posMap
        (getVirtualRoomPosition uRoom w)).getD []).foldl
        (evictOne (getVirtualRoomPosition uRoom w)
          ((alook st.posMap (getVirtualRoomPosition uRoom w)).getD []) c)
        st).nodes j = some nd →
        nd.room.position ≠ getVirtualRoomPosition uRoom w := by
      intro j nd hj hq
      obtain ⟨nd0, h0, hroom⟩ := shrink1 j nd hj
      have hql : posOfId root j = getVirtualRoomPosition uRoom w := by
        rw [← live_room_pos hinv h0, hroom]
        exact hq
      have hmem := hcomp j nd0 h0 hql
      have := allDead1 j hmem
      rw [hj] at this
      cases this
    have hins := installRoom_spec hinv1 hndu1 hur1 hord hc hw
      (getVirtualRoomPosition_eq uRoom w) hnolive1
    obtain ⟨hinv2, hres2, hchildlook, presAll, newOnly⟩ := hins
    refine ⟨hinv2, ?_, ?_, ?_, ?_, ?_⟩
    · -- low orders survive
      intro j nd h hle
      have hlive1 : ∃ nd1, alook (((alook st.posMap
          (getVirtualRoomPosition uRoom w)).getD []).foldl
          (evictOne (getVirtualRoomPosition uRoom w)
            ((alook st.posMap (getVirtualRoomPosition uRoom w)).getD [])
            c) st).nodes j = some nd1 ∧ nd1.room = nd.room := by
        rcases hl1 : alook (((alook st.posMap
            (getVirtualRoomPosition uRoom w)).getD []).foldl
            (evictOne (getVirtualRoomPosition uRoom w)
              ((alook st.posMap (getVirtualRoomPosition uRoom w)).getD
                []) c) st).nodes j with _ | nd1
        · exfalso
          obtain ⟨-, hord2⟩ := kills1 j nd h hl1
          omega
        · obtain ⟨nd0, h0, hroom⟩ := shrink1 j nd1 hl1
          rw [h] at h0
          cases h0
          exact ⟨nd1, rfl, hroom.symm⟩
      obtain ⟨nd1, hl1, hroom1⟩ := hlive1
      obtain ⟨nd2, hl2, hroom2⟩ := presAll j nd1 hl1
      exact ⟨nd2, hl2, by rw [hroom2, hroom1]⟩
    · -- occupancy improves
      intro p m hocc
      obtain ⟨j, nd, hj, hjpos, hjord⟩ := hocc
      rcases hl1 : alook (((alook st.posMap
          (getVirtualRoomPosition uRoom w)).getD []).foldl
          (evictOne (getVirtualRoomPosition uRoom w)
            ((alook st.posMap (getVirtualRoomPosition uRoom w)).getD [])
            c) st).nodes j with _ | nd1
      · obtain ⟨hq, hord2⟩ := kills1 j nd hj hl1
        refine ⟨RoomId.child u w (c + 1),
          ⟨createVirtualRoom uRoom w (getVirtualRoomPosition uRoom w)
            (c + 1), some u, []⟩, hchildlook, ?_, ?_⟩
        · show getVirtualRoomPosition uRoom w = p
          rw [← hq, hjpos]
        · show c + 1 ≤ m
          omega
      · obtain ⟨nd0, h0, hroom⟩ := shrink1 j nd1 hl1
        rw [hj] at h0
        cases h0
        obtain ⟨nd2, hl2, hroom2⟩ := presAll j nd1 hl1
        exact ⟨j, nd2, hl2, by rw [hroom2, ← hroom]; exact hjpos,
          by rw [hroom2, ← hroom]; exact hjord⟩
    · -- the wall obligation
      refine Or.inr (Or.inr ?_)
      refine ⟨RoomId.child u w (c + 1),
        ⟨createVirtualRoom uRoom w (getVirtualRoomPosition uRoom w)
          (c + 1), some u, []⟩, hchildlook, ?_, ?_⟩
      · show getVirtualRoomPosition uRoom w = stepPos uRoom.position w
        exact getVirtualRoomPosition_eq uRoom w
      · show c + 1 ≤ c + 1
        omega
    · -- new nodes are the reported child
      intro j nd h hdead
      rcases hl1 : alook (((alook st.posMap
          (getVirtualRoomPosition uRoom w)).getD []).foldl
          (evictOne (getVirtualRoomPosition uRoom w)
            ((alook st.posMap (getVirtualRoomPosition uRoom w)).getD [])
            c) st).nodes j with _ | nd1
      · obtain ⟨hj, hroom⟩ := newOnly j nd h hl1
        rw [hres2, hj, hroom]
      · exfalso
        obtain ⟨nd0, h0, -⟩ := shrink1 j nd1 hl1
        rw [hdead] at h0
        cases h0
    · -- the reported child is live with order c + 1
      intro cid croom h
      rw [hres2] at h
      have h5 := Option.some.inj h
      have hcid : cid = RoomId.child u w (c + 1) :=
        (congrArg Prod.fst h5).symm
      have hcroom : croom = createVirtualRoom uRoom w
          (getVirtualRoomPosition uRoom w) (c + 1) :=
        (congrArg Prod.snd h5).symm
      refine ⟨⟨_, by rw [hcid]; exact hchildlook, by rw [hcroom]⟩, ?_⟩
      rw [hcroom]
      rfl
  · -- free cell: install directly
    have hw : uRoom.walls.get w = true := by
      rcases Bool.eq_false_or_eq_true (uRoom.walls.get w) with ht | hf
      · exact ht
      · exact absurd hf h1
    have hex : (alook st.posMap (getVirtualRoomPosition uRoom w)).getD
        [] = [] := by
      by_contra hne2
      exact h3 hne2
    have hnolive : ∀ j nd, alook st.nodes j = some nd →
        nd.room.position ≠ getVirtualRoomPosition uRoom w := by
      intro j nd hj hq
      have hql : posOfId root j = getVirtualRoomPosition uRoom w := by
        rw [← live_room_pos hinv hj]
        exact hq
      have := hinv.complete j nd hj
      rw [hql, hex] at this
      cases this
    have hins := installRoom_spec hinv hndu hur hord hc hw
      (getVirtualRoomPosition_eq uRoom w) hnolive
    obtain ⟨hinv2, hres2, hchildlook, presAll, newOnly⟩ := hins
    refine ⟨hinv2, ?_, ?_, ?_, ?_, ?_⟩
    · intro j nd h hle
      exact presAll j nd h
    · intro p m hocc
      obtain ⟨j, nd, hj, hjpos, hjord⟩ := hocc
      obtain ⟨nd2, hl2, hroom2⟩ := presAll j nd hj
      exact ⟨j, nd2, hl2, by rw [hroom2]; exact hjpos,
        by rw [hroom2]; exact hjord⟩
    · refine Or.inr (Or.inr ?_)
      refine ⟨RoomId.child u w (c + 1),
        ⟨createVirtualRoom uRoom w (getVirtualRoomPosition uRoom w)
          (c + 1), some u, []⟩, hchildlook, ?_, ?_⟩
      · show getVirtualRoomPosition uRoom w = stepPos uRoom.position w
        exact getVirtualRoomPosition_eq uRoom w
      · show c + 1 ≤ c + 1
        omega
    · intro j nd h hdead
      obtain ⟨hj, hroom⟩ := newOnly j nd h hdead
      rw [hres2, hj, hroom]
    · intro cid croom h
      rw [hres2] at h
      have h5 := Option.some.inj h
      have hcid : cid = RoomId.child u w (c + 1) :=
        (congrArg Prod.fst h5).symm
      have hcroom : croom = createVirtualRoom uRoom w
          (getVirtualRoomPosition uRoom w) (c + 1) :=
        (congrArg Prod.snd h5).symm
      refine ⟨⟨_, by rw [hcid]; exact hchildlook, by rw [hcroom]⟩, ?_⟩
      rw [hcroom]
      rfl

/-- The builder's unfolding equation. -/
theorem buildRoomTree_unfold (u : RoomId) (uRoom : Room) (mo c : ℕ)
    (st : BuildSt) :
    buildRoomTree u uRoom mo c st =
      if mo ≤ c then st
      else
        match findOriginal st with
        | none => st
        | some orig =>
            let s1 := cvrStep orig u uRoom c .top st
            let s1b := match s1.2 with
              | some cc => buildRoomTree cc.1 cc.2 mo (c + 1) s1.1
              | none => s1.1
            let s2 := cvrStep orig u uRoom c .right s1b
            let s2b := match s2.2 with
              | some cc => buildRoomTree cc.1 cc.2 mo (c + 1) s2.1
              | none => s2.1
            let s3 := cvrStep orig u uRoom c .bottom s2b
            let s3b := match s3.2 with
              | some cc => buildRoomTree cc.1 cc.2 mo (c + 1) s3.1
              | none => s3.1
            let s4 := cvrStep orig u uRoom c .left s3b
            match s4.2 with
            | some cc => buildRoomTree cc.1 cc.2 mo (c + 1) s4.1
            | none => s4.1 := by
  rw [buildRoomTree]

/-! ### Composing the builder postconditions -/

/-- Survival is reflexive. -/
theorem Preserves_refl (k : ℕ) (st : BuildSt) : Preserves k st st :=
  fun _ nd h _ => ⟨nd, h, rfl⟩

/-- Occupancy monotonicity is reflexive. -/
theorem Mono_refl (st : BuildSt) : Mono st st := fun _ _ h => h

/-- Survival composes. -/
theorem Preserves_trans {k : ℕ} {st1 st2 st3 : BuildSt}
    (h1 : Preserves k st1 st2) (h2 : Preserves k st2 st3) :
    Preserves k st1 st3 := by
  intro i nd h hle
  obtain ⟨nd2, hl2, hr2⟩ := h1 i nd h hle
  obtain ⟨nd3, hl3, hr3⟩ := h2 i nd2 hl2 (by rw [hr2]; exact hle)
  exact ⟨nd3, hl3, by rw [hr3, hr2]⟩

/-- Survival for a lower cap follows from a higher cap. -/
theorem Preserves_weaken {k j : ℕ} {st1 st2 : BuildSt} (hjk : j ≤ k)
    (h : Preserves k st1 st2) : Preserves j st1 st2 :=
  fun i nd hn hle => h i nd hn (le_trans hle hjk)

/-- Occupancy monotonicity composes. -/
theorem Mono_trans {st1 st2 st3 : BuildSt} (h1 : Mono st1 st2)
    (h2 : Mono st2 st3) : Mono st1 st3 :=
  fun p m h => h2 p m (h1 p m h)

/-- Expansion persists as occupancy improves. -/
theorem Expanded_mono {root : Room} {st1 st2 : BuildSt} {r : Room}
    (hm : Mono st1 st2) (h : Expanded root st1 r) : Expanded root st2 r := by
  intro w hw
  rcases h w hw with h1 | h1
  · exact Or.inl h1
  · exact Or.inr (hm _ _ h1)

/-- A discharged wall obligation persists as occupancy improves. -/
theorem WallDone_mono {root : Room} {st1 st2 : BuildSt} {uRoom : Room}
    {w : Wall} {c : ℕ} (hm : Mono st1 st2)
    (h : WallDone root st1 uRoom w c) : WallDone root st2 uRoom w c := by
  rcases h with h1 | h1 | h1
  · exact Or.inl h1
  · exact Or.inr (Or.inl h1)
  · exact Or.inr (Or.inr (hm _ _ h1))

/-- All four discharged wall obligations amount to expansion. -/
theorem wallDone_expanded {root : Room} {st : BuildSt} {uRoom : Room}
    {c : ℕ} (h : ∀ w, WallDone root st uRoom w c)
    (hord : uRoom.reflectionOrder = c) : Expanded root st uRoom := by
  intro w hw
  rcases h w with hf | h2 | h3
  · rw [hw] at hf
    cases hf
  · exact Or.inl h2
  · right
    rw [hord]
    exact h3

/-- One wall block of the builder (the step together with the
recursion into the installed child, if any), assuming the recursion
satisfies its specification. -/
theorem block_spec {root : Room} {mo c : ℕ} (hc : c < mo) (w : Wall)
    (IH : ∀ cu cuR cst, BInv root mo cst →
      (∃ nd, alook cst.nodes cu = some nd ∧ nd.room = cuR) →
      cuR.reflectionOrder = c + 1 →
      BInv root mo (buildRoomTree cu cuR mo (c + 1) cst) ∧
      Preserves (c + 2) cst (buildRoomTree cu cuR mo (c + 1) cst) ∧
      Mono cst (buildRoomTree cu cuR mo (c + 1) cst) ∧
      NewExpanded root mo cst (buildRoomTree cu cuR mo (c + 1) cst) ∧
      (c + 1 < mo → Expanded root (buildRoomTree cu cuR mo (c + 1) cst)
        cuR))
    {st : BuildSt} (hinv : BInv root mo st) {u : RoomId} {uRoom : Room}
    (hu : ∃ nd, alook st.nodes u = some nd ∧ nd.room = uRoom)
    (hord : uRoom.reflectionOrder = c) :
    BInv root mo (match (cvrStep root u uRoom c w st).2 with
      | some cc => buildRoomTree cc.1 cc.2 mo (c + 1)
          (cvrStep root u uRoom c w st).1
      | none => (cvrStep root u uRoom c w st).1) ∧
    Preserves (c + 1) st (match (cvrStep root u uRoom c w st).2 with
      | some cc => buildRoomTree cc.1 cc.2 mo (c + 1)
          (cvrStep root u uRoom c w st).1
      | none => (cvrStep root u uRoom c w st).1) ∧
    Mono st (match (cvrStep root u uRoom c w st).2 with
      | some cc => buildRoomTree cc.1 cc.2 mo (c + 1)
          (cvrStep root u uRoom c w st).1
      | none => (cvrStep root u uRoom c w st).1) ∧
    NewExpanded root mo st (match (cvrStep root u uRoom c w st).2 with
      | some cc => buildRoomTree cc.1 cc.2 mo (c + 1)
          (cvrStep root u uRoom c w st).1
      | none => (cvrStep root u uRoom c w st).1) ∧
    WallDone root (match (cvrStep root u uRoom c w st).2 with
      | some cc => buildRoomTree cc.1 cc.2 mo (c + 1)
          (cvrStep root u uRoom c w st).1
      | none => (cvrStep root u uRoom c w st).1) uRoom w c := by
  obtain ⟨hinv1, pres1, mono1, wd1, hnew, hchild⟩ :=
    cvrStep_spec hinv hu hord hc w
  rcases hs : (cvrStep root u uRoom c w st).2 with _ | ⟨cid, croom⟩
  · refine ⟨hinv1, pres1, mono1, ?_, wd1⟩
    intro i nd h hdead hlt
    have := hnew i nd h hdead
    rw [hs] at this
    cases this
  · obtain ⟨⟨ndc, hndc, hndcr⟩, hcord⟩ := hchild cid croom hs
    obtain ⟨hinv2, pres2, mono2, ne2, exp2⟩ := IH cid croom
      (cvrStep root u uRoom c w st).1 hinv1 ⟨ndc, hndc, hndcr⟩ hcord
    refine ⟨hinv2, Preserves_trans pres1
      (Preserves_weaken (by omega) pres2), Mono_trans mono1 mono2,
      ?_, WallDone_mono mono2 wd1⟩
    intro i nd h hdead hlt
    rcases h1 : alook (cvrStep root u uRoom c w st).1.nodes i
      with _ | nd1
    · exact ne2 i nd h h1 hlt
    · have hres := hnew i nd1 h1 hdead
      rw [hs] at hres
      have h5 := Option.some.inj hres
      have hci : cid = i := congrArg Prod.fst h5
      have hcr : croom = nd1.room := congrArg Prod.snd h5
      have hroomeq : nd.room = nd1.room := by
        rw [hinv2.det i nd h, hinv1.det i nd1 h1]
      have hexp := exp2 (by
        rw [hroomeq, ← hcr, hcord] at hlt
        exact hlt)
      rw [hroomeq, ← hcr]
      exact Expanded_mono (Mono_refl _) hexp

/-- New-node expansion composes across two segments (room values are
id-determined, so they transport between states). -/
theorem NewExpanded_comp {root : Room} {mo : ℕ} {st st1 st2 : BuildSt}
    (hi1 : BInv root mo st1) (hi2 : BInv root mo st2) (m2 : Mono st1 st2)
    (n1 : NewExpanded root mo st st1) (n2 : NewExpanded root mo st1 st2) :
    NewExpanded root mo st st2 := by
  intro i nd h2 hdead hlt
  rcases h1 : alook st1.nodes i with _ | nd1
  · exact n2 i nd h2 h1 hlt
  · have hroom : nd1.room = nd.room := by
      rw [hi1.det i nd1 h1, hi2.det i nd h2]
    have hexp := n1 i nd1 h1 hdead (by rw [hroom]; exact hlt)
    rw [hroom] at hexp
    exact Expanded_mono m2 hexp

/-- The current node stays live with its room across a survival
segment. -/
theorem live_uRoom_through {st st2 : BuildSt} {k : ℕ} {u : RoomId}
    {uRoom : Room} {c : ℕ} (hord : uRoom.reflectionOrder = c)
    (hck : c ≤ k) (hpres : Preserves k st st2)
    (hu : ∃ nd, alook st.nodes u = some nd ∧ nd.room = uRoom) :
    ∃ nd, alook st2.nodes u = some nd ∧ nd.room = uRoom := by
  obtain ⟨nd, hn, hr⟩ := hu
  obtain ⟨nd2, h2, hr2⟩ := hpres u nd hn (by rw [hr, hord]; omega)
  exact ⟨nd2, h2, by rw [hr2, hr]⟩

/-- The builder recursion satisfies its specification: the invariant is
preserved, nodes of order up to `c + 1` survive, occupancy improves,
every new node of order below `mo` ends up expanded, and the current
node ends up expanded when below the cap. -/
theorem buildRoomTree_spec (root : Room) (mo : ℕ) :
    ∀ (fuel c : ℕ) (u : RoomId) (uRoom : Room) (st : BuildSt),
    mo - c ≤ fuel → BInv root mo st →
    (∃ nd, alook st.nodes u = some nd ∧ nd.room = uRoom) →
    uRoom.reflectionOrder = c →
    BInv root mo (buildRoomTree u uRoom mo c st) ∧
    Preserves (c + 1) st (buildRoomTree u uRoom mo c st) ∧
    Mono st (buildRoomTree u uRoom mo c st) ∧
    NewExpanded root mo st (buildRoomTree u uRoom mo c st) ∧
    (c < mo → Expanded root (buildRoomTree u uRoom mo c st) uRoom) := by
  intro fuel
  induction fuel with
  | zero =>
      intro c u uRoom st hfuel hinv hu hord
      have hmc : mo ≤ c := by omega
      rw [buildRoomTree_unfold, if_pos hmc]
      refine ⟨hinv, Preserves_refl _ _, Mono_refl _, ?_, ?_⟩
      · intro i nd h hdead
        rw [h] at hdead
        cases hdead
      · intro hlt
        omega
  | succ fuel ih =>
      intro c u uRoom st hfuel hinv hu hord
      by_cases hmc : mo ≤ c
      · rw [buildRoomTree_unfold, if_pos hmc]
        refine ⟨hinv, Preserves_refl _ _, Mono_refl _, ?_, ?_⟩
        · intro i nd h hdead
          rw [h] at hdead
          cases hdead
        · intro hlt
          omega
      · have hc : c < mo := by omega
        have IH : ∀ cu cuR cst, BInv root mo cst →
            (∃ nd, alook cst.nodes cu = some nd ∧ nd.room = cuR) →
            cuR.reflectionOrder = c + 1 →
            BInv root mo (buildRoomTree cu cuR mo (c + 1) cst) ∧
            Preserves (c + 2) cst (buildRoomTree cu cuR mo (c + 1) cst) ∧
            Mono cst (buildRoomTree cu cuR mo (c + 1) cst) ∧
            NewExpanded root mo cst
              (buildRoomTree cu cuR mo (c + 1) cst) ∧
            (c + 1 < mo →
              Expanded root (buildRoomTree cu cuR mo (c + 1) cst) cuR) :=
          fun cu cuR cst hinvc huc hordc =>
            ih (c + 1) cu cuR cst (by omega) hinvc huc hordc
        rw [buildRoomTree_unfold, if_neg hmc, findOriginal_inv hinv]
        simp only []
        -- the four wall blocks
        obtain ⟨B1inv, B1pres, B1mono, B1ne, B1wd⟩ :=
          block_spec hc Wall.top IH hinv hu hord
        have hu1 := live_uRoom_through hord (by omega) B1pres hu
        obtain ⟨B2inv, B2pres, B2mono, B2ne, B2wd⟩ :=
          block_spec hc Wall.right IH B1inv hu1 hord
        have hu2 := live_uRoom_through hord (by omega) B2pres hu1
        obtain ⟨B3inv, B3pres, B3mono, B3ne, B3wd⟩ :=
          block_spec hc Wall.bottom IH B2inv hu2 hord
        have hu3 := live_uRoom_through hord (by omega) B3pres hu2
        obtain ⟨B4inv, B4pres, B4mono, B4ne, B4wd⟩ :=
          block_spec hc Wall.left IH B3inv hu3 hord
        refine ⟨B4inv, ?_, ?_, ?_, ?_⟩
        · exact Preserves_trans B1pres (Preserves_trans B2pres
            (Preserves_trans B3pres B4pres))
        · exact Mono_trans B1mono (Mono_trans B2mono
            (Mono_trans B3mono B4mono))
        · exact NewExpanded_comp B3inv B4inv B4mono
            (NewExpanded_comp B2inv B3inv B3mono
              (NewExpanded_comp B1inv B2inv B2mono B1ne B2ne) B3ne) B4ne
        · intro hlt
          refine wallDone_expanded ?_ hord
          intro w
          cases w with
          | top => exact WallDone_mono (Mono_trans B2mono
              (Mono_trans B3mono B4mono)) B1wd
          | right => exact WallDone_mono (Mono_trans B3mono B4mono) B2wd
          | bottom => exact WallDone_mono B4mono B3wd
          | left => exact B4wd

/-- The initial builder state satisfies the invariant (for an order-0
root). -/
theorem initial_BInv (root : Room) (h0 : root.reflectionOrder = 0)
    (mo : ℕ) : BInv root mo (initialBuildSt root) := by
  have hch : ∀ i nd, alook (initialBuildSt root).nodes i = some nd →
      i = root.id ∧ nd = ⟨root, none, []⟩ := by
    intro i nd h
    unfold initialBuildSt at h
    rw [alook_cons] at h
    by_cases hri : root.id = i
    · rw [if_pos hri] at h
      exact ⟨hri.symm, (Option.some.inj h).symm⟩
    · rw [if_neg hri] at h
      simp [alook] at h
  refine ⟨h0, ?_, ?_, ?_, ?_, ?_, ?_, ?_, ?_, ?_, ?_, ?_⟩
  · intro i nd h
    obtain ⟨hi, hnd⟩ := hch i nd h
    rw [hi, hnd, roomOfId_self]
  · intro i nd h
    rw [(hch i nd h).1]
  · intro i nd h
    obtain ⟨hi, hnd⟩ := hch i nd h
    subst hi
    rw [posOfId_self]
    simp [initialBuildSt, alook_cons]
  · intro p l hl i hi
    unfold initialBuildSt at hl
    rw [alook_cons] at hl
    by_cases hp : root.position = p
    · rw [if_pos hp] at hl
      cases hl
      rw [List.mem_singleton.mp hi, posOfId_self]
      exact hp
    · rw [if_neg hp] at hl
      simp [alook] at hl
  · intro i j ni nj hi hj hpos
    rw [(hch i ni hi).1, (hch j nj hj).1]
  · intro i nd h
    obtain ⟨-, hnd⟩ := hch i nd h
    rw [hnd]
    show ReachCfg root root.reflectionOrder root.position root.walls
    rw [h0]
    exact ReachCfg.zero
  · intro i nd h
    obtain ⟨-, hnd⟩ := hch i nd h
    rw [hnd]
    show root.reflectionOrder ≤ mo
    omega
  · intro i nd h
    rw [(hch i nd h).2]
    exact List.nodup_nil
  · intro i nd h cc hcc
    rw [(hch i nd h).2] at hcc
    cases hcc
  · intro i nd h
    obtain ⟨hi, hnd⟩ := hch i nd h
    rw [hnd, hi]
    show (none : Option RoomId) = parentOfId root root.id
    simp [parentOfId]
  · exact ⟨⟨root, none, []⟩, rfl⟩

/-- The final builder state: the invariant holds and every live node of
order below the cap is expanded. -/
theorem final_spec (root : Room) (h0 : root.reflectionOrder = 0)
    (mo : ℕ) :
    BInv root mo (buildRoomTree root.id root mo 0
      (initialBuildSt root)) ∧
    (∀ i nd, alook (buildRoomTree root.id root mo 0
        (initialBuildSt root)).nodes i = some nd →
      nd.room.reflectionOrder < mo →
      Expanded root (buildRoomTree root.id root mo 0
        (initialBuildSt root)) nd.room) := by
  have hinv0 := initial_BInv root h0 mo
  have hu : ∃ nd, alook (initialBuildSt root).nodes root.id = some nd ∧
      nd.room = root :=
    ⟨⟨root, none, []⟩, by rw [initialBuildSt, alook_cons, if_pos rfl],
      rfl⟩
  obtain ⟨hinvF, presF, monoF, neF, expF⟩ := buildRoomTree_spec root mo
    mo 0 root.id root (initialBuildSt root) (by omega) hinv0 hu h0
  refine ⟨hinvF, ?_⟩
  intro i nd h hlt
  rcases h1 : alook (initialBuildSt root).nodes i with _ | nd0
  · exact neF i nd h h1 hlt
  · have hch : i = root.id := by
      unfold initialBuildSt at h1
      rw [alook_cons] at h1
      by_cases hri : root.id = i
      · exact hri.symm
      · rw [if_neg hri] at h1
        simp [alook] at h1
    subst hch
    have hroom : nd.room = root := by
      rw [hinvF.det _ nd h, roomOfId_self]
    have hmo : 0 < mo := by
      rw [hroom, h0] at hlt
      exact hlt
    rw [hroom]
    exact expF hmo

/-- In the final state, every cell reached by a composition of at most
`mo` reflections is occupied with order at most the composition
length. -/
theorem reach_min {root : Room} {mo : ℕ} {stF : BuildSt}
    (hinv : BInv root mo stF)
    (hexp : ∀ i nd, alook stF.nodes i = some nd →
      nd.room.reflectionOrder < mo → Expanded root stF nd.room) :
    ∀ {n : ℕ} {p : IPos} {cfg : WallCfg}, ReachCfg root n p cfg →
      n ≤ mo → OccLe stF p n := by
  have hrootOcc : ∀ m, OccLe stF root.position m := by
    intro m
    obtain ⟨nd0, hh⟩ := hinv.rootFirst
    have hl := alook_head hh
    have hroom : nd0.room = root := by
      rw [hinv.det _ _ hl, roomOfId_self]
    refine ⟨root.id, nd0, hl, ?_, ?_⟩
    · rw [hroom]
    · rw [hroom, hinv.rootOrd]
      omega
  intro n p cfg h
  induction h with
  | zero =>
      intro _
      exact hrootOcc 0
  | step w hr hw ihr =>
      intro hn1
      obtain ⟨j, nd, hj, hjpos, hjord⟩ := ihr (by omega)
      have hklt : nd.room.reflectionOrder < mo := by omega
      have hwj : nd.room.walls.get w = true := by
        have hcfg := reach_configFor hr
        have hwalls : nd.room.walls = configFor root nd.room.position := by
          rw [hinv.det j nd hj, roomOfId_walls, ← roomOfId_position]
        rw [hwalls, hjpos, ← hcfg]
        exact hw
      rcases hexp j nd hj hklt w hwj with hroot | hocc
      · rw [hjpos] at hroot
        rw [hroot]
        exact hrootOcc _
      · obtain ⟨j2, nd2, hj2, hp2, ho2⟩ := hocc
        refine ⟨j2, nd2, hj2, ?_, by omega⟩
        rw [hp2, hjpos]

/-! ### The flattened tree -/

/-- Unfolding of the flattening at a live node. -/
theorem flatten_succ (st : BuildSt) (fuel : ℕ) (i : RoomId)
    {nd : RoomNodeE} (h : alook st.nodes i = some nd) :
    flattenRoomTree st (fuel + 1) i =
      nd.room :: nd.children.flatMap (flattenRoomTree st fuel) := by
  rw [flattenRoomTree, h]

/-- Iterated parents compose. -/
theorem parentIter_add (st : BuildSt) :
    ∀ (a b : ℕ) (j : RoomId), parentIter st (a + b) j =
      (parentIter st a j).bind (fun x => parentIter st b x) := by
  intro a
  induction a with
  | zero =>
      intro b j
      rw [Nat.zero_add]
      rfl
  | succ a ih =>
      intro b j
      rw [Nat.succ_add]
      rcases hj : alook st.nodes j with _ | nd
      · simp [parentIter, hj]
      · rcases hp : nd.parent with _ | p
        · simp [parentIter, hj, hp]
        · simp [parentIter, hj, hp, ih]

/-- A structural parent is one level shallower. -/
theorem parentOfId_depth {root : Room} {c q : RoomId}
    (h : parentOfId root c = some q) : idDepth c = idDepth q + 1 := by
  unfold parentOfId at h
  by_cases hr : c = root.id
  · rw [if_pos hr] at h
    cases h
  · rw [if_neg hr] at h
    cases c with
    | original => cases h
    | child p w k =>
        simp only [Option.some.injEq] at h
        rw [← h]
        rfl

/-- Iterated parent chains between live nodes descend exactly one id
level per step. -/
theorem parentIter_depth {root : Room} {mo : ℕ} {st : BuildSt}
    (hinv : BInv root mo st) :
    ∀ (m : ℕ) (j c : RoomId), parentIter st m j = some c →
      (∃ nd, alook st.nodes j = some nd) →
      (∃ nd, alook st.nodes c = some nd) →
      idDepth c + m = idDepth j := by
  intro m
  induction m with
  | zero =>
      intro j c h _ _
      rw [Option.some.inj h]
      omega
  | succ m ih =>
      intro j c h hj hc
      obtain ⟨nd, hnd⟩ := hj
      simp only [parentIter, hnd] at h
      rcases hp : nd.parent with _ | p
      · rw [hp] at h
        cases h
      · rw [hp] at h
        have hpd := hinv.parentDet j nd hnd
        rw [hp] at hpd
        have hdj : idDepth j = idDepth p + 1 := parentOfId_depth hpd.symm
        have hpl : ∃ nd2, alook st.nodes p = some nd2 := by
          cases m with
          | zero =>
              have hcp : p = c := Option.some.inj h
              rw [hcp]
              exact hc
          | succ m2 =>
              rcases hpl2 : alook st.nodes p with _ | nd2
              · simp [parentIter, hpl2] at h
              · exact ⟨nd2, rfl⟩
        have := ih p c h hpl hc
        omega

/-- Every room emitted by the flattening is the room of a live node
with a parent chain up to the flattening origin. -/
theorem flatten_mem {root : Room} {mo : ℕ} {st : BuildSt}
    (hinv : BInv root mo st) :
    ∀ (fuel : ℕ) (i : RoomId) (r : Room), r ∈ flattenRoomTree st fuel i →
      ∃ j nd, alook st.nodes j = some nd ∧ nd.room = r ∧
        ∃ m, parentIter st m j = some i := by
  intro fuel
  induction fuel with
  | zero =>
      intro i r h
      cases h
  | succ fuel ih =>
      intro i r h
      rcases hl : alook st.nodes i with _ | nd
      · rw [flattenRoomTree, hl] at h
        cases h
      · rw [flatten_succ st fuel i hl] at h
        rcases List.mem_cons.mp h with rfl | h2
        · exact ⟨i, nd, hl, rfl, 0, rfl⟩
        · obtain ⟨cc, hcc, hrc⟩ := List.mem_flatMap.mp h2
          obtain ⟨j, ndj, hj, hr, m, hm⟩ := ih cc r hrc
          obtain ⟨cnd, hcnd, hpar⟩ := hinv.childLive i nd hl cc hcc
          refine ⟨j, ndj, hj, hr, m + 1, ?_⟩
          rw [parentIter_add st m 1 j, hm]
          show parentIter st 1 cc = some i
          simp [parentIter, hcnd, hpar]

/-- Distinct children of a live node head disjoint parent chains. -/
theorem subtree_disjoint {root : Room} {mo : ℕ} {st : BuildSt}
    (hinv : BInv root mo st) {i : RoomId} {nd : RoomNodeE}
    (hi : alook st.nodes i = some nd) {c1 c2 : RoomId}
    (h1 : c1 ∈ nd.children) (h2 : c2 ∈ nd.children) (hne : c1 ≠ c2)
    {j : RoomId} (hj : ∃ ndj, alook st.nodes j = some ndj)
    {m1 m2 : ℕ} (p1 : parentIter st m1 j = some c1)
    (p2 : parentIter st m2 j = some c2) : False := by
  obtain ⟨cnd1, hcnd1, hpar1⟩ := hinv.childLive i nd hi c1 h1
  obtain ⟨cnd2, hcnd2, hpar2⟩ := hinv.childLive i nd hi c2 h2
  have hd1 : idDepth c1 = idDepth i + 1 := by
    refine @parentOfId_depth root c1 i ?_
    rw [← hinv.parentDet c1 cnd1 hcnd1]
    exact hpar1
  have hd2 : idDepth c2 = idDepth i + 1 := by
    refine @parentOfId_depth root c2 i ?_
    rw [← hinv.parentDet c2 cnd2 hcnd2]
    exact hpar2
  have he1 := parentIter_depth hinv m1 j c1 p1 hj ⟨cnd1, hcnd1⟩
  have he2 := parentIter_depth hinv m2 j c2 p2 hj ⟨cnd2, hcnd2⟩
  have hm : m1 = m2 := by omega
  rw [hm, p2] at p1
  exact hne (Option.some.inj p1).symm

/-- The flattening of a live node lists pairwise distinct room ids. -/
theorem flatten_pairwise {root : Room} {mo : ℕ} {st : BuildSt}
    (hinv : BInv root mo st) :
    ∀ (fuel : ℕ) (i : RoomId), (∃ nd, alook st.nodes i = some nd) →
      (flattenRoomTree st fuel i).Pairwise (fun a b => a.id ≠ b.id) := by
  intro fuel
  induction fuel with
  | zero =>
      intro i _
      exact List.Pairwise.nil
  | succ fuel ih =>
      intro i hi
      obtain ⟨nd, hl⟩ := hi
      rw [flatten_succ st fuel i hl]
      refine List.pairwise_cons.mpr ⟨?_, ?_⟩
      · intro b hb heq
        obtain ⟨cc, hcc, hbc⟩ := List.mem_flatMap.mp hb
        obtain ⟨jb, ndb, hjb, hrb, m, hm⟩ := flatten_mem hinv fuel cc b hbc
        have hidi : nd.room.id = i := live_room_id hinv hl
        have hidb : b.id = jb := by
          rw [← hrb]
          exact live_room_id hinv hjb
        have hij : i = jb := by rw [← hidi, heq, hidb]
        subst hij
        obtain ⟨cnd, hcnd, hpar⟩ := hinv.childLive i nd hl cc hcc
        have hchain : parentIter st (m + 1) i = some i := by
          rw [parentIter_add st m 1, hm]
          show parentIter st 1 cc = some i
          simp [parentIter, hcnd, hpar]
        have hd := parentIter_depth hinv (m + 1) i i hchain ⟨nd, hl⟩
          ⟨nd, hl⟩
        omega
      · have hflat : nd.children.flatMap (flattenRoomTree st fuel) =
            (nd.children.map (flattenRoomTree st fuel)).flatten := rfl
        rw [hflat, List.pairwise_flatten]
        constructor
        · intro l hlm
          obtain ⟨cc, hcc, hmap⟩ := List.mem_map.mp hlm
          obtain ⟨cnd, hcnd, -⟩ := hinv.childLive i nd hl cc hcc
          rw [← hmap]
          exact ih cc ⟨cnd, hcnd⟩
        · rw [List.pairwise_map]
          have hnodup := hinv.childNodup i nd hl
          refine List.Pairwise.imp_of_mem ?_ hnodup
          intro c1 c2 hc1 hc2 hne a ha b hb heq
          obtain ⟨ja, nda, hja, hra, m1, hm1⟩ :=
            flatten_mem hinv fuel c1 a ha
          obtain ⟨jb, ndb, hjb, hrb, m2, hm2⟩ :=
            flatten_mem hinv fuel c2 b hb
          have hina : a.id = ja := by
            rw [← hra]
            exact live_room_id hinv hja
          have hinb : b.id = jb := by
            rw [← hrb]
            exact live_room_id hinv hjb
          have hjj : ja = jb := by rw [← hina, heq, hinb]
          subst hjj
          exact subtree_disjoint hinv hl hc1 hc2 hne ⟨nda, hja⟩ hm1 hm2

/-- For an order-0 root and a positive cap, the retained room list is
exactly the flattening of the final builder state. -/
theorem retained_eq_flatten (root : Room) (h0 : root.reflectionOrder = 0)
    (mo : ℕ) (hmo : mo ≠ 0) :
    retainedRooms root mo =
      flattenRoomTree (buildRoomTree root.id root mo 0
        (initialBuildSt root)) (mo + 1) root.id := by
  obtain ⟨hinvF, -⟩ := final_spec root h0 mo
  obtain ⟨nd0, hh⟩ := hinvF.rootFirst
  have hl := alook_head hh
  have hroom : nd0.room = root := by rw [hinvF.det _ _ hl, roomOfId_self]
  have hpw := flatten_pairwise hinvF (mo + 1) root.id ⟨nd0, hl⟩
  rw [flatten_succ _ mo root.id hl] at hpw ⊢
  unfold retainedRooms generateVirtualRooms
  rw [if_neg hmo]
  simp only []
  rw [flatten_succ _ mo root.id hl]
  rw [List.filter_cons]
  have hid : nd0.room.id = root.id := by rw [hroom]
  have hrest : ∀ b ∈ nd0.children.flatMap (flattenRoomTree
      (buildRoomTree root.id root mo 0 (initialBuildSt root)) mo),
      b.id ≠ root.id := by
    intro b hb heq
    have hhead := (List.pairwise_cons.mp hpw).1 b hb
    rw [hid, heq] at hhead
    exact hhead rfl
  rw [hid]
  simp only [ne_eq, not_true_eq_false, decide_False, Bool.false_eq_true,
    if_false]
  rw [List.filter_eq_self.mpr]
  · rw [hroom]
  · intro b hb
    simp only [ne_eq, decide_eq_true_eq]
    exact hrest b hb

/-- For a root of nonzero reflection order, the builder produces no
virtual rooms (the original-room lookup fails). -/
theorem generateVirtualRooms_nonzero_root (root : Room)
    (h0 : root.reflectionOrder ≠ 0) (mo : ℕ) :
    generateVirtualRooms root mo = [] := by
  unfold generateVirtualRooms
  by_cases hmo : mo = 0
  · rw [if_pos hmo]
  · rw [if_neg hmo]
    simp only []
    rw [buildRoomTree_unfold, if_neg (show ¬ mo ≤ 0 by omega)]
    have hfo : findOriginal (initialBuildSt root) = none := by
      unfold findOriginal initialBuildSt
      rw [List.find?_cons_of_neg]
      · rfl
      · simp [h0]
    rw [hfo]
    have hlinit : alook (initialBuildSt root).nodes root.id =
        some ⟨root, none, []⟩ := by
      rw [initialBuildSt, alook_cons, if_pos rfl]
    rw [flatten_succ _ mo root.id hlinit]
    simp

/-- C2: for every root room and maxOrder, no two rooms in the retained
room list share a grid position (exactly one room per occupied cell
survives the final tree). -/
theorem buildRoomTree_unique_positions (root : Room) (mo : ℕ) :
    (retainedRooms root mo).Pairwise
      (fun a b => a.position ≠ b.position) := by
  by_cases h0 : root.reflectionOrder = 0
  · by_cases hmo : mo = 0
    · subst hmo
      unfold retainedRooms generateVirtualRooms
      simp
    · obtain ⟨hinvF, -⟩ := final_spec root h0 mo
      obtain ⟨nd0, hh⟩ := hinvF.rootFirst
      have hl := alook_head hh
      rw [retained_eq_flatten root h0 mo hmo]
      have hpw := flatten_pairwise hinvF (mo + 1) root.id ⟨nd0, hl⟩
      refine List.Pairwise.imp_of_mem ?_ hpw
      intro a b ha hb hne heq
      obtain ⟨ja, nda, hja, hra, -⟩ :=
        flatten_mem hinvF (mo + 1) root.id a ha
      obtain ⟨jb, ndb, hjb, hrb, -⟩ :=
        flatten_mem hinvF (mo + 1) root.id b hb
      have hjj := hinvF.uniq ja jb nda ndb hja hjb
        (by rw [hra, hrb]; exact heq)
      apply hne
      rw [← hra, ← hrb, live_room_id hinvF hja, live_room_id hinvF hjb,
        hjj]
  · rw [retainedRooms, generateVirtualRooms_nonzero_root root h0 mo]
    simp

/-- C1: for every order-0 root room, mirror configuration and maxOrder,
every room of the final tree is the unique retained room at its grid
cell, its cell is reachable by a composition of that many mirror
reflections from the root, and its reflection order is minimal among
all such compositions reaching the cell. -/
theorem buildRoomTree_dominance (root : Room)
    (h0 : root.reflectionOrder = 0) (mo : ℕ) (r : Room)
    (hr : r ∈ retainedRooms root mo) :
    (∀ s ∈ retainedRooms root mo, s.position = r.position → s = r) ∧
    ReachesCell root r.reflectionOrder r.position ∧
    (∀ n, ReachesCell root n r.position → r.reflectionOrder ≤ n) := by
  by_cases hmo : mo = 0
  · subst hmo
    have hsing : retainedRooms root 0 = [root] := by
      unfold retainedRooms generateVirtualRooms
      rw [if_pos rfl]
    rw [hsing] at hr ⊢
    have hrr : r = root := List.mem_singleton.mp hr
    refine ⟨?_, ?_, ?_⟩
    · intro s hs _
      rw [List.mem_singleton.mp hs, hrr]
    · rw [hrr, h0]
      exact ⟨root.walls, ReachCfg.zero⟩
    · intro n _
      rw [hrr, h0]
      omega
  · obtain ⟨hinvF, hexpF⟩ := final_spec root h0 mo
    rw [retained_eq_flatten root h0 mo hmo] at hr ⊢
    obtain ⟨jr, ndr, hjr, hrr, -⟩ :=
      flatten_mem hinvF (mo + 1) root.id r hr
    refine ⟨?_, ?_, ?_⟩
    · intro s hs heq
      obtain ⟨js, nds, hjs, hrs, -⟩ :=
        flatten_mem hinvF (mo + 1) root.id s hs
      have hjj := hinvF.uniq js jr nds ndr hjs hjr
        (by rw [hrs, hrr]; exact heq)
      subst hjj
      rw [hjr] at hjs
      rw [← hrs, ← hrr, Option.some.inj hjs]
    · have hre := hinvF.reach jr ndr hjr
      rw [hrr] at hre
      exact ⟨r.walls, hre⟩
    · intro n hn
      by_cases hnm : n ≤ mo
      · obtain ⟨cfg, hcfg⟩ := hn
        obtain ⟨j2, nd2, hj2, hp2, ho2⟩ := reach_min hinvF hexpF hcfg hnm
        have hjj := hinvF.uniq j2 jr nd2 ndr hj2 hjr (by rw [hp2, hrr])
        subst hjj
        rw [hj2] at hjr
        rw [← hrr, ← Option.some.inj hjr]
        exact ho2
      · have hbd := hinvF.ordBound jr ndr hjr
        rw [hrr] at hbd
        omega

/-- C1 witness: the concrete 4×4 sample root at maxOrder 1 satisfies
uniqueness, realizability and minimality at its own cell. -/
theorem buildRoomTree_dominance_witness :
    (∀ s ∈ retainedRooms sampleRoot 1,
      s.position = sampleRoot.position → s = sampleRoot) ∧
    ReachesCell sampleRoot sampleRoot.reflectionOrder
      sampleRoot.position ∧
    (∀ n, ReachesCell sampleRoot n sampleRoot.position →
      sampleRoot.reflectionOrder ≤ n) :=
  buildRoomTree_dominance sampleRoot rfl 1 sampleRoot
    (List.mem_cons_self _ _)
